import Mathlib

/-!
Verification development for the geoapi raster pipeline
(services/segmentation.py, services/features.py, services/samples.py,
services/propagation.py), as a shallow embedding in Lean.

Machine floats are modelled by ℚ; a possibly non-finite float (NaN/inf)
is modelled by `Option ℚ` with `none` standing for the non-finite case.
Geometries handled opaquely by the code are modelled by an abstract
identifier type; geometries that the code rasterizes are modelled by the
set of pixels they cover.
-/

namespace GeoApi

/-! ## Percentile stretch primitive

Embedding of `_percentile_scale_stack` and `_stretch8` from
services/segmentation.py.  `np.nanpercentile` with the default linear
interpolation is embedded over ℚ; the `np.isfinite` guards of the source
are vacuous over ℚ and noted where they occur. -/

def clip01 (x : ℚ) : ℚ := min 1 (max 0 x)

/-- Embeds `np.nanmin` on an all-finite array (0 on the empty array). -/
def listMin : List ℚ → ℚ
  | [] => 0
  | x :: xs => xs.foldl min x

/-- Embeds `np.nanmax` on an all-finite array (0 on the empty array). -/
def listMax : List ℚ → ℚ
  | [] => 0
  | x :: xs => xs.foldl max x

/-- Embeds `np.nanpercentile(xs, q)` (linear interpolation) on an
all-finite array. -/
def nanpercentile (xs : List ℚ) (q : ℚ) : ℚ :=
  if xs.length = 0 then 0
  else
    let s := xs.insertionSort (· ≤ ·)
    let n := s.length
    let h := q / 100 * ((n : ℚ) - 1)
    let i := (Int.floor h).toNat
    let lo := s.getD i 0
    let hi := s.getD (min (i + 1) (n - 1)) 0
    lo + (h - (i : ℚ)) * (hi - lo)

/-- The `1e-6` guard added to the denominator in the source. -/
def epsQ : ℚ := 1 / 1000000

/-- Embeds one channel of `_percentile_scale_stack` (segmentation.py,
lines 140-152): percentile bounds with min/max fallback, all-zero output
on a degenerate range, otherwise a clipped linear map to [0,1].  The
`np.isfinite(lo)`/`np.isfinite(hi)` tests of the source are always true
over ℚ. -/
def percentileScaleBand (band : List ℚ) (pLow pHigh : ℚ) : List ℚ :=
  if nanpercentile band pHigh ≤ nanpercentile band pLow then
    if listMax band ≤ listMin band then band.map (fun _ => 0)
    else band.map (fun x =>
      clip01 ((x - listMin band) / (listMax band - listMin band + epsQ)))
  else band.map (fun x =>
    clip01 ((x - nanpercentile band pLow) /
      (nanpercentile band pHigh - nanpercentile band pLow + epsQ)))

/-- Embeds `_percentile_scale_stack` itself: every channel is stretched
independently. -/
def percentileScaleStack (stack : List (List ℚ)) (pLow pHigh : ℚ) : List (List ℚ) :=
  stack.map (fun band => percentileScaleBand band pLow pHigh)

/-- Embeds `_stretch8` (segmentation.py, lines 154-161): same fallback
chain, output scaled to 0..255 and truncated to an unsigned byte. -/
def stretch8 (arr : List ℚ) (pLow pHigh : ℚ) : List ℕ :=
  if nanpercentile arr pHigh ≤ nanpercentile arr pLow then
    if listMax arr ≤ listMin arr then arr.map (fun _ => 0)
    else arr.map (fun x =>
      (Int.floor (clip01 ((x - listMin arr) /
        (listMax arr - listMin arr + epsQ)) * 255)).toNat)
  else arr.map (fun x =>
    (Int.floor (clip01 ((x - nanpercentile arr pLow) /
      (nanpercentile arr pHigh - nanpercentile arr pLow + epsQ)) * 255)).toNat)

/-! ### Helper lemmas for the stretch -/

theorem clip01_mono {a b : ℚ} (h : a ≤ b) : clip01 a ≤ clip01 b := by
  unfold clip01
  exact min_le_min le_rfl (max_le_max le_rfl h)

theorem getD_map_of_lt {α β : Type} (f : α → β) (xs : List α) (i : ℕ)
    (hi : i < xs.length) (d : α) (e : β) :
    (xs.map f).getD i e = f (xs.getD i d) := by
  induction xs generalizing i with
  | nil => simp at hi
  | cons x xs ih =>
    cases i with
    | zero => simp [List.getD]
    | succ n =>
      simp only [List.map_cons, List.getD_cons_succ]
      exact ih n (by simpa using hi)

theorem listMin_replicate (n : ℕ) (c : ℚ) (hn : n ≠ 0) :
    listMin (List.replicate n c) = c := by
  cases n with
  | zero => exact absurd rfl hn
  | succ m =>
    simp only [List.replicate_succ, listMin]
    induction m with
    | zero => simp
    | succ k ih => simpa [List.replicate_succ, min_self] using ih

theorem listMax_replicate (n : ℕ) (c : ℚ) (hn : n ≠ 0) :
    listMax (List.replicate n c) = c := by
  cases n with
  | zero => exact absurd rfl hn
  | succ m =>
    simp only [List.replicate_succ, listMax]
    induction m with
    | zero => simp
    | succ k ih => simpa [List.replicate_succ, max_self] using ih

theorem getD_replicate_of_lt (n i : ℕ) (c d : ℚ) (hi : i < n) :
    (List.replicate n c).getD i d = c := by
  induction n generalizing i with
  | zero => omega
  | succ m ih =>
    cases i with
    | zero => simp [List.replicate_succ]
    | succ j =>
      simp only [List.replicate_succ, List.getD_cons_succ]
      exact ih j (by omega)

theorem insertionSort_of_all_eq (xs : List ℚ) (c : ℚ) (h : ∀ x ∈ xs, x = c) :
    xs.insertionSort (· ≤ ·) = List.replicate xs.length c := by
  have hperm := List.perm_insertionSort (· ≤ ·) xs
  have hmem : ∀ x ∈ xs.insertionSort (· ≤ ·), x = c := by
    intro x hx
    exact h x (hperm.mem_iff.mp hx)
  have hlen : (xs.insertionSort (· ≤ ·)).length = xs.length := hperm.length_eq
  have := List.eq_replicate_of_mem hmem
  rw [this, hlen]

theorem nanpercentile_replicate (n : ℕ) (c q : ℚ) (hn : n ≠ 0)
    (h0 : 0 ≤ q) (h1 : q ≤ 100) :
    nanpercentile (List.replicate n c) q = c := by
  cases n with
  | zero => exact absurd rfl hn
  | succ m =>
    rw [nanpercentile]
    have hlen : (List.replicate (m + 1) c).length = m + 1 := by simp
    rw [if_neg (by simp)]
    have hsort : (List.replicate (m + 1) c).insertionSort (· ≤ ·) =
        List.replicate (m + 1) c := by
      have := insertionSort_of_all_eq (List.replicate (m + 1) c) c
        (fun x hx => List.eq_of_mem_replicate hx)
      simpa using this
    simp only [hsort, hlen]
    set h := q / 100 * (((m + 1 : ℕ) : ℚ) - 1) with hh
    have hnn : (0 : ℚ) ≤ h := by
      apply mul_nonneg (by positivity)
      push_cast
      linarith [Nat.cast_nonneg (α := ℚ) m]
    have hub : h ≤ ((m + 1 : ℕ) : ℚ) - 1 := by
      have h100 : q / 100 ≤ 1 := div_le_one_of_le₀ h1 (by norm_num)
      have hnn1 : ((m + 1 : ℕ) : ℚ) - 1 ≥ 0 := by
        push_cast
        linarith [Nat.cast_nonneg (α := ℚ) m]
      calc q / 100 * (((m + 1 : ℕ) : ℚ) - 1) ≤ 1 * (((m + 1 : ℕ) : ℚ) - 1) :=
            mul_le_mul_of_nonneg_right h100 hnn1
        _ = ((m + 1 : ℕ) : ℚ) - 1 := one_mul _
    have him : (Int.floor h).toNat < m + 1 := by
      have hf0 : (0 : ℤ) ≤ Int.floor h := Int.le_floor.mpr (by exact_mod_cast hnn)
      have hfm : Int.floor h ≤ (m : ℤ) := by
        have hq : h ≤ ((m : ℤ) : ℚ) := by push_cast at hub ⊢; linarith
        calc Int.floor h ≤ Int.floor ((m : ℤ) : ℚ) := Int.floor_le_floor hq
          _ = (m : ℤ) := Int.floor_intCast m
      omega
    have hgd1 : (List.replicate (m + 1) c).getD (Int.floor h).toNat 0 = c :=
      getD_replicate_of_lt _ _ _ _ him
    have hgd2 : (List.replicate (m + 1) c).getD
        (min ((Int.floor h).toNat + 1) (m + 1 - 1)) 0 = c := by
      apply getD_replicate_of_lt
      omega
    rw [hgd1, hgd2]
    ring

theorem all_eq_of_replicate {xs : List ℚ} {c : ℚ} (h : ∀ x ∈ xs, x = c) :
    xs = List.replicate xs.length c :=
  List.eq_replicate_of_mem h

theorem stretchFun_mono {lo hiv a b : ℚ} (hlt : lo < hiv) (hab : a ≤ b) :
    clip01 ((a - lo) / (hiv - lo + epsQ)) ≤ clip01 ((b - lo) / (hiv - lo + epsQ)) := by
  apply clip01_mono
  have hd : (0 : ℚ) < hiv - lo + epsQ := by
    have : (0 : ℚ) < epsQ := by norm_num [epsQ]
    linarith
  gcongr

theorem stretch8Fun_mono {lo hiv a b : ℚ} (hlt : lo < hiv) (hab : a ≤ b) :
    (Int.floor (clip01 ((a - lo) / (hiv - lo + epsQ)) * 255)).toNat ≤
      (Int.floor (clip01 ((b - lo) / (hiv - lo + epsQ)) * 255)).toNat := by
  have h1 := stretchFun_mono hlt hab
  have h2 : clip01 ((a - lo) / (hiv - lo + epsQ)) * 255 ≤
      clip01 ((b - lo) / (hiv - lo + epsQ)) * 255 := by nlinarith
  exact Int.toNat_le_toNat (Int.floor_le_floor h2)

theorem map_const_replicate (xs : List ℚ) :
    xs.map (fun _ => (0 : ℚ)) = List.replicate xs.length 0 := by
  induction xs with
  | nil => rfl
  | cons x t ih => simp [List.replicate_succ, ih]

theorem map_const_replicate_nat (xs : List ℚ) :
    xs.map (fun _ => (0 : ℕ)) = List.replicate xs.length 0 := by
  induction xs with
  | nil => rfl
  | cons x t ih => simp [List.replicate_succ, ih]

/-- C5: the percentile-stretch primitive (`_percentile_scale_stack` channel map
and `_stretch8`) is monotone — for every input array and every pair of elements
with values a ≤ b, the stretched value of a is ≤ the stretched value of b — and
on an array whose elements are all equal it returns an all-zero array of the
same shape (the degenerate-range fallback, no exception path exists). -/
theorem claim_C5_percentile_stretch :
    (∀ (band : List ℚ) (pl ph : ℚ) (i j : ℕ), i < band.length → j < band.length →
        band.getD i 0 ≤ band.getD j 0 →
        (percentileScaleBand band pl ph).getD i 0 ≤ (percentileScaleBand band pl ph).getD j 0)
    ∧ (∀ (arr : List ℚ) (pl ph : ℚ) (i j : ℕ), i < arr.length → j < arr.length →
        arr.getD i 0 ≤ arr.getD j 0 →
        (stretch8 arr pl ph).getD i 0 ≤ (stretch8 arr pl ph).getD j 0)
    ∧ (∀ (band : List ℚ) (c : ℚ), (∀ x ∈ band, x = c) →
        percentileScaleBand band 2 98 = List.replicate band.length 0)
    ∧ (∀ (arr : List ℚ) (c : ℚ), (∀ x ∈ arr, x = c) →
        stretch8 arr 2 98 = List.replicate arr.length 0) := by
  refine ⟨?_, ?_, ?_, ?_⟩
  · intro band pl ph i j hi hj hab
    unfold percentileScaleBand
    split
    · split
      · rw [getD_map_of_lt _ _ _ hi 0 0, getD_map_of_lt _ _ _ hj 0 0]
      · rename_i hlt
        rw [getD_map_of_lt _ _ _ hi 0 0, getD_map_of_lt _ _ _ hj 0 0]
        exact stretchFun_mono (not_le.mp hlt) hab
    · rename_i hlt
      rw [getD_map_of_lt _ _ _ hi 0 0, getD_map_of_lt _ _ _ hj 0 0]
      exact stretchFun_mono (not_le.mp hlt) hab
  · intro arr pl ph i j hi hj hab
    unfold stretch8
    split
    · split
      · rw [getD_map_of_lt _ _ _ hi 0 0, getD_map_of_lt _ _ _ hj 0 0]
      · rename_i hlt
        rw [getD_map_of_lt _ _ _ hi 0 0, getD_map_of_lt _ _ _ hj 0 0]
        exact stretch8Fun_mono (not_le.mp hlt) hab
    · rename_i hlt
      rw [getD_map_of_lt _ _ _ hi 0 0, getD_map_of_lt _ _ _ hj 0 0]
      exact stretch8Fun_mono (not_le.mp hlt) hab
  · intro band c hall
    rcases eq_or_ne band [] with rfl | hne
    · rfl
    · have hb := all_eq_of_replicate hall
      have hn : band.length ≠ 0 := by
        simpa [List.length_eq_zero] using hne
      rw [hb]
      simp only [List.length_replicate]
      unfold percentileScaleBand
      rw [nanpercentile_replicate _ _ _ hn (by norm_num) (by norm_num),
        nanpercentile_replicate _ _ _ hn (by norm_num) (by norm_num)]
      rw [if_pos le_rfl,
        listMin_replicate _ _ hn, listMax_replicate _ _ hn, if_pos le_rfl]
      rw [map_const_replicate]
      simp
  · intro arr c hall
    rcases eq_or_ne arr [] with rfl | hne
    · rfl
    · have hb := all_eq_of_replicate hall
      have hn : arr.length ≠ 0 := by
        simpa [List.length_eq_zero] using hne
      rw [hb]
      simp only [List.length_replicate]
      unfold stretch8
      rw [nanpercentile_replicate _ _ _ hn (by norm_num) (by norm_num),
        nanpercentile_replicate _ _ _ hn (by norm_num) (by norm_num)]
      rw [if_pos le_rfl,
        listMin_replicate _ _ hn, listMax_replicate _ _ hn, if_pos le_rfl]
      rw [map_const_replicate_nat]
      simp

/-- Witness for C5 at concrete inputs: monotone on [3, 5] at positions 0 ≤ 1,
and all-zero output on the constant array [7, 7]. -/
theorem claim_C5_percentile_stretch_witness :
    (percentileScaleBand [3, 5] 2 98).getD 0 0 ≤ (percentileScaleBand [3, 5] 2 98).getD 1 0
    ∧ percentileScaleBand [7, 7] 2 98 = List.replicate 2 0 := by
  constructor
  · exact claim_C5_percentile_stretch.1 [3, 5] 2 98 0 1 (by norm_num) (by norm_num) (by norm_num)
  · have := claim_C5_percentile_stretch.2.2.1 [7, 7] 7 (by intro x hx; simpa using hx)
    simpa using this

/-! ## Segmentation vectorization

Embedding of the tail of `aplicar_segmentacao_multibanda`
(services/segmentation.py, lines 410-425): the SLIC label grid is
vectorized with `rasterio.features.shapes` under the mask `segments > 0`,
each emitted record carries `segment_id = int(val)`, and invalid / null /
empty geometries are dropped.  The external `shapes` routine is embedded
through its documented contract `IsShapesOutput`: it emits one record per
maximal 4-connected region of equal value inside the mask.  The external
SLIC guarantee (`enforce_connectivity=True`, `start_label=1`) is the
hypothesis `LabelConnected`. -/

abbrev Pixel := ℕ × ℕ

/-- 4-neighbourhood adjacency on the pixel grid (the default connectivity
of `rasterio.features.shapes`). -/
def adjPix (p q : Pixel) : Bool :=
  (p.1 == q.1 && (p.2 + 1 == q.2 || q.2 + 1 == p.2)) ||
  (p.2 == q.2 && (p.1 + 1 == q.1 || q.1 + 1 == p.1))

/-- A label grid, row major, as produced by `slic` (H rows of W labels). -/
abbrev Grid := List (List ℕ)

def gval (g : Grid) (p : Pixel) : ℕ := (g.getD p.1 []).getD p.2 0

/-- Embeds `segments.astype(np.uint16)` (segmentation.py line 412): the grid
handed to `shapes` carries each label reduced modulo 2^16, so labels of
65536 and above wrap around. -/
def castU16 (g : Grid) : Grid := g.map (fun row => row.map (fun v => v % 65536))

def gridPixels (g : Grid) : List Pixel :=
  (List.range g.length).flatMap (fun i =>
    (List.range (g.getD i []).length).map (fun j => (i, j)))

/-- The pixels selected by `mask = segments > 0`. -/
def maskPixels (g : Grid) : List Pixel :=
  (gridPixels g).filter (fun p => decide (0 < gval g p))

def pixelsOfLabel (g : Grid) (v : ℕ) : List Pixel :=
  (gridPixels g).filter (fun p => gval g p == v)

/-- Reachability inside the pixel list S by at most n adjacency steps. -/
def reachB (S : List Pixel) : ℕ → Pixel → Pixel → Bool
  | 0, p, q => p == q
  | n + 1, p, q => p == q || S.any (fun r => adjPix p r && reachB S n r q)

/-- A pixel list is connected when all its members reach each other inside
it within |S| steps. -/
def connectedIn (S : List Pixel) : Prop :=
  ∀ p ∈ S, ∀ q ∈ S, reachB S S.length p q = true

instance (S : List Pixel) : Decidable (connectedIn S) := by
  unfold connectedIn; infer_instance

/-- The guarantee `enforce_connectivity=True` gives for the SLIC label
grid: the pixels of each label occurring in the mask form one connected
set. -/
def LabelConnected (g : Grid) : Prop :=
  ∀ v ∈ (maskPixels g).map (gval g), connectedIn (pixelsOfLabel g v)

instance (g : Grid) : Decidable (LabelConnected g) := by
  unfold LabelConnected; infer_instance

/-- One record of the `shapes` generator: a polygon, modelled by the pixel
region it was traced from, together with its burned label value. -/
structure ShapeRec where
  region : List Pixel
  value : ℕ
deriving DecidableEq

/-- Documented contract of
`rasterio.features.shapes(segments.astype(np.uint16), mask=segments>0)`:
the records cover the mask (taken on the *uncast* grid, since the mask
expression `segments > 0` precedes the cast), carry the uint16-cast value of
their pixels, are nonempty, connected, closed under same-cast-value adjacency
inside the mask (maximality), and pairwise disjoint. -/
def IsShapesOutput (g : Grid) (out : List ShapeRec) : Prop :=
  (∀ p ∈ maskPixels g, ∃ e ∈ out, p ∈ e.region)
  ∧ (∀ e ∈ out, ∀ p ∈ e.region, p ∈ maskPixels g ∧ gval (castU16 g) p = e.value)
  ∧ (∀ e ∈ out, e.region ≠ [])
  ∧ (∀ e ∈ out, connectedIn e.region)
  ∧ (∀ e ∈ out, ∀ p ∈ e.region, ∀ q ∈ maskPixels g,
      adjPix p q = true → gval (castU16 g) q = e.value → q ∈ e.region)
  ∧ out.Pairwise (fun a b => ∀ p ∈ a.region, p ∉ b.region)

instance (g : Grid) (out : List ShapeRec) : Decidable (IsShapesOutput g out) := by
  unfold IsShapesOutput; infer_instance

/-- Embeds the geometry filter
`gdf[gdf.geometry.is_valid & gdf.geometry.notna()]; gdf[~gdf.geometry.is_empty]`:
records whose (external) geometry predicate fails are dropped. -/
def vectorize (out : List ShapeRec) (validGeom : List Pixel → Bool) : List ShapeRec :=
  out.filter (fun e => validGeom e.region)

/-- Embeds the tail of `aplicar_segmentacao_multibanda`: vectorize, filter,
save (file writes are external), and return the success message reporting the
polygon count.  There is no emptiness check and no error path. -/
def aplicarSegmentacaoTail (out : List ShapeRec) (validGeom : List Pixel → Bool) :
    Except String (List ShapeRec × String) :=
  let gdf := vectorize out validGeom
  Except.ok (gdf, "Segmentação: " ++ toString gdf.length ++ " polígonos")

/-! ### Lemmas for the vectorization invariants -/

theorem mem_maskPixels {g : Grid} {p : Pixel} :
    p ∈ maskPixels g ↔ p ∈ gridPixels g ∧ 0 < gval g p := by
  simp [maskPixels, List.mem_filter]

theorem mem_pixelsOfLabel {g : Grid} {p : Pixel} {v : ℕ} :
    p ∈ pixelsOfLabel g v ↔ p ∈ gridPixels g ∧ gval g p = v := by
  simp [pixelsOfLabel, List.mem_filter]

theorem getD_map_mod (row : List ℕ) (j : ℕ) :
    (row.map (fun v => v % 65536)).getD j 0 = row.getD j 0 % 65536 := by
  induction row generalizing j with
  | nil => simp
  | cons x xs ih =>
    cases j with
    | zero => simp
    | succ k => simpa using ih k

theorem getD_map_cast (g : Grid) (i : ℕ) :
    (castU16 g).getD i [] = (g.getD i []).map (fun v => v % 65536) := by
  unfold castU16
  induction g generalizing i with
  | nil => simp
  | cons r rs ih =>
    cases i with
    | zero => simp
    | succ k => simpa using ih k

theorem castU16_gval (g : Grid) (p : Pixel) :
    gval (castU16 g) p = gval g p % 65536 := by
  unfold gval
  rw [getD_map_cast, getD_map_mod]

theorem region_closed_under_reach (g : Grid) (e : ShapeRec) (hvpos : 0 < e.value)
    (hclosed : ∀ p ∈ e.region, ∀ q ∈ maskPixels g,
      adjPix p q = true → gval g q = e.value → q ∈ e.region)
    (n : ℕ) (p q : Pixel) (hp : p ∈ e.region)
    (hr : reachB (pixelsOfLabel g e.value) n p q = true) : q ∈ e.region := by
  induction n generalizing p with
  | zero =>
    have : p = q := by simpa [reachB] using hr
    exact this ▸ hp
  | succ m ih =>
    simp only [reachB, Bool.or_eq_true, List.any_eq_true, Bool.and_eq_true] at hr
    rcases hr with hpq | ⟨r, hrS, hadj, hrest⟩
    · have : p = q := by simpa using hpq
      exact this ▸ hp
    · have hrlab := mem_pixelsOfLabel.mp hrS
      have hrmask : r ∈ maskPixels g :=
        mem_maskPixels.mpr ⟨hrlab.1, hrlab.2 ▸ hvpos⟩
      have hrreg : r ∈ e.region := hclosed p hp r hrmask hadj hrlab.2
      exact ih r hrreg hrest

theorem exists_mem_of_nonempty {α : Type} (l : List α) (h : l ≠ []) : ∃ x, x ∈ l := by
  cases l with
  | nil => exact absurd rfl h
  | cons x xs => exact ⟨x, by simp⟩

theorem shapes_values_pairwise_ne (g : Grid) (out : List ShapeRec)
    (hso : IsShapesOutput g out) (hlc : LabelConnected g)
    (hbound : ∀ p ∈ maskPixels g, gval g p < 65536) :
    out.Pairwise (fun a b => a.value ≠ b.value) := by
  obtain ⟨_hcov, hvals0, hne, _hconn, hclosed0, hdisj⟩ := hso
  have hvals : ∀ e ∈ out, ∀ p ∈ e.region,
      p ∈ maskPixels g ∧ gval g p = e.value := by
    intro e he p hp
    obtain ⟨hm, hv⟩ := hvals0 e he p hp
    refine ⟨hm, ?_⟩
    rw [← hv, castU16_gval, Nat.mod_eq_of_lt (hbound p hm)]
  have hclosed : ∀ e ∈ out, ∀ p ∈ e.region, ∀ q ∈ maskPixels g,
      adjPix p q = true → gval g q = e.value → q ∈ e.region := by
    intro e he p hp q hq hadj hv
    exact hclosed0 e he p hp q hq hadj
      (by rw [castU16_gval, Nat.mod_eq_of_lt (hbound q hq), hv])
  rw [List.pairwise_iff_forall_sublist] at hdisj ⊢
  intro a b hsub
  have hdis := hdisj hsub
  have ha : a ∈ out := hsub.subset (by simp)
  have hb : b ∈ out := hsub.subset (by simp)
  intro hv
  obtain ⟨pa, hpa⟩ := exists_mem_of_nonempty a.region (hne a ha)
  obtain ⟨pb, hpb⟩ := exists_mem_of_nonempty b.region (hne b hb)
  obtain ⟨hpaMask, hpaVal⟩ := hvals a ha pa hpa
  obtain ⟨hpbMask, hpbVal⟩ := hvals b hb pb hpb
  have hvpos : 0 < a.value := hpaVal ▸ (mem_maskPixels.mp hpaMask).2
  have hpaL : pa ∈ pixelsOfLabel g a.value :=
    mem_pixelsOfLabel.mpr ⟨(mem_maskPixels.mp hpaMask).1, hpaVal⟩
  have hpbL : pb ∈ pixelsOfLabel g a.value :=
    mem_pixelsOfLabel.mpr ⟨(mem_maskPixels.mp hpbMask).1, by rw [hpbVal, hv]⟩
  have hmem : a.value ∈ (maskPixels g).map (gval g) :=
    List.mem_map.mpr ⟨pa, hpaMask, hpaVal⟩
  have hreach := hlc a.value hmem pa hpaL pb hpbL
  have hpb_in_a : pb ∈ a.region :=
    region_closed_under_reach g a hvpos (hclosed a ha) _ pa pb hpa hreach
  exact hdis pb hpb_in_a hpb

/-- C8 counterexample: the `astype(np.uint16)` cast at segmentation.py line
412 breaks the claim once SLIC labels reach 65536.  Grid [[65536]] satisfies
the shapes contract with a record of value 0 — the mask `segments > 0` keeps
the pixel but the cast zeroes its value — so a polygon with segment_id = 0 is
emitted; grid [[1, 2, 65537]] satisfies it with two disjoint regions both of
value 1 (65537 wraps to 1), so the emitted segment_ids are not pairwise
distinct. -/
theorem claim_C8_counterexample :
    (IsShapesOutput [[65536]] [⟨[(0, 0)], 0⟩]
      ∧ LabelConnected [[65536]]
      ∧ ¬ (∀ e ∈ vectorize [⟨[(0, 0)], 0⟩] (fun _ => true), e.value ≠ 0))
    ∧ (IsShapesOutput [[1, 2, 65537]]
          [⟨[(0, 0)], 1⟩, ⟨[(0, 1)], 2⟩, ⟨[(0, 2)], 1⟩]
      ∧ LabelConnected [[1, 2, 65537]]
      ∧ ¬ ((vectorize [⟨[(0, 0)], 1⟩, ⟨[(0, 1)], 2⟩, ⟨[(0, 2)], 1⟩]
            (fun _ => true)).map ShapeRec.value).Nodup) := by
  exact ⟨⟨by decide, by decide, by decide⟩, ⟨by decide, by decide, by decide⟩⟩

/-- C8 amended: for a segmentation run whose SLIC labels all stay below 65536
(so the `astype(np.uint16)` cast at segmentation.py line 412 is lossless) —
with the per-label pixel sets connected, as SLIC with enforce_connectivity
guarantees, and any output of the shapes vectorizer on it — the vectorized
output never contains a polygon with segment_id = 0, every emitted segment_id
is a positive integer, and each segment_id occurs at most once in the run's
output.  Without the bound the cast wraps and the claim fails
(claim_C8_counterexample). -/
theorem claim_C8_segment_ids (g : Grid) (out : List ShapeRec)
    (validGeom : List Pixel → Bool)
    (hso : IsShapesOutput g out) (hlc : LabelConnected g)
    (hbound : ∀ p ∈ maskPixels g, gval g p < 65536) :
    (∀ e ∈ vectorize out validGeom, e.value ≠ 0 ∧ 0 < e.value)
    ∧ ((vectorize out validGeom).map ShapeRec.value).Nodup := by
  constructor
  · intro e he
    have heo : e ∈ out := List.mem_of_mem_filter he
    obtain ⟨p, hp⟩ := exists_mem_of_nonempty e.region (hso.2.2.1 e heo)
    obtain ⟨hpm, hpv⟩ := hso.2.1 e heo p hp
    have hgv : gval (castU16 g) p = gval g p := by
      rw [castU16_gval, Nat.mod_eq_of_lt (hbound p hpm)]
    have hpos : 0 < e.value := by
      rw [← hpv, hgv]; exact (mem_maskPixels.mp hpm).2
    exact ⟨Nat.pos_iff_ne_zero.mp hpos, hpos⟩
  · have hpw := shapes_values_pairwise_ne g out hso hlc hbound
    have hnd : (out.map ShapeRec.value).Nodup := List.pairwise_map.mpr hpw
    have hsub : List.Sublist ((vectorize out validGeom).map ShapeRec.value)
        (out.map ShapeRec.value) := (List.filter_sublist out).map ShapeRec.value
    exact hnd.sublist hsub

/-- Witness for C8 on the concrete 1×2 grid [[1, 2]] with its two
single-pixel regions (labels below 65536, so the cast is lossless). -/
theorem claim_C8_segment_ids_witness :
    (∀ e ∈ vectorize [⟨[(0, 0)], 1⟩, ⟨[(0, 1)], 2⟩] (fun _ => true),
        e.value ≠ 0 ∧ 0 < e.value)
    ∧ ((vectorize [⟨[(0, 0)], 1⟩, ⟨[(0, 1)], 2⟩] (fun _ => true)).map
        ShapeRec.value).Nodup :=
  claim_C8_segment_ids [[1, 2]] [⟨[(0, 0)], 1⟩, ⟨[(0, 1)], 2⟩] (fun _ => true)
    (by decide) (by decide) (by decide)

/-- C4 counterexample: with a shapes record whose geometry fails the validity
filter, the validity-filtered polygon set is empty, yet
`aplicar_segmentacao_multibanda` returns a success message reporting
0 polygons instead of failing with a SegmentationEmpty error (no such check
exists in the code). -/
theorem claim_C4_counterexample :
    vectorize [⟨[(0, 0)], 1⟩] (fun _ => false) = []
    ∧ aplicarSegmentacaoTail [⟨[(0, 0)], 1⟩] (fun _ => false) =
        Except.ok ([], "Segmentação: 0 polígonos") := by
  constructor
  · rfl
  · rfl

/-- C4 amended: whenever the validity-filtered set of segment polygons is
empty, the segmentation tail does NOT fail: it writes the empty layer and
returns success reporting 0 polygons (the code has no SegmentationEmpty
check; it also performs no AOI clipping). -/
theorem claim_C4_empty_returns_success (out : List ShapeRec)
    (validGeom : List Pixel → Bool)
    (hempty : vectorize out validGeom = []) :
    aplicarSegmentacaoTail out validGeom =
      Except.ok ([], "Segmentação: 0 polígonos") := by
  simp only [aplicarSegmentacaoTail, hempty]
  rfl

/-- Witness for the amended C4 at a concrete empty-result input. -/
theorem claim_C4_empty_returns_success_witness :
    aplicarSegmentacaoTail [⟨[(0, 1)], 3⟩] (fun _ => false) =
      Except.ok ([], "Segmentação: 0 polígonos") :=
  claim_C4_empty_returns_success [⟨[(0, 1)], 3⟩] (fun _ => false) (by rfl)

/-! ## Feature extraction (services/features.py)

`_rasterize_segments` burns each segment polygon onto a zero-filled
integer grid in list order (`rasterio.features.rasterize`, `fill=0`,
`all_touched=False`); a polygon is modelled by the list of pixels whose
representative point it covers.  `build_features` then iterates over
`sorted(set(np.unique(labels)) ∩ (0,∞))` — the labels present in the
rasterized grid, not the segment layer — and computes
mean/std/p10/p50/p90 per band via `_stats_for_label`, which emits NaN
placeholders when a label has no pixels or no finite values.  A float
value is `Option ℚ` (`none` = non-finite); statistics live in ℝ because
of the square root in `np.nanstd`. -/

/-- Write value v at pixel p of an integer grid; out-of-range writes are
impossible in the source (the mask indexes the grid) and leave the grid
unchanged here. -/
def setPix (g : List (List Int)) (p : Pixel) (v : Int) : List (List Int) :=
  match g.get? p.1 with
  | some row => g.set p.1 (row.set p.2 v)
  | none => g

def zeroGrid (H W : ℕ) : List (List Int) :=
  List.replicate H (List.replicate W 0)

/-- Embeds `_rasterize_segments`: burn every (geometry, segment_id) pair in
order onto a zero grid, later shapes overwriting earlier ones. -/
def rasterizeSegments (segs : List (List Pixel × Int)) (H W : ℕ) : List (List Int) :=
  segs.foldl (fun g s => s.1.foldl (fun g2 p => setPix g2 p s.2) g) (zeroGrid H W)

def igval (g : List (List Int)) (p : Pixel) : Int := (g.getD p.1 []).getD p.2 0

def ipixels (g : List (List Int)) : List Pixel :=
  (List.range g.length).flatMap (fun i =>
    (List.range (g.getD i []).length).map (fun j => (i, j)))

/-- Embeds `sorted(set(int(x) for x in np.unique(labels) if x > 0))`. -/
def uniqueLabels (g : List (List Int)) : List Int :=
  ((((ipixels g).map (igval g)).filter (fun v => decide (0 < v))).dedup).insertionSort (· ≤ ·)

/-- A float value of a band raster; `none` models a non-finite float. -/
abbrev FVal := Option ℚ

/-- The finite values of a band at the pixels carrying label v
(`values[labels == label]` followed by the `np.isfinite` filter). -/
def maskVals (values : List (List FVal)) (labels : List (List Int)) (v : Int) : List ℚ :=
  (((ipixels labels).filter (fun p => igval labels p == v)).map
    (fun p => (values.getD p.1 []).getD p.2 none)).filterMap id

/-- The five summary statistics of `_stats_for_label`; `none` is the NaN
placeholder. -/
structure SegStats where
  mean : Option ℝ
  std : Option ℝ
  q10 : Option ℝ
  q50 : Option ℝ
  q90 : Option ℝ

def nanStats : SegStats := ⟨none, none, none, none, none⟩

def meanQ (vs : List ℚ) : ℚ := vs.sum / vs.length

def varQ (vs : List ℚ) : ℚ := (vs.map (fun x => (x - meanQ vs) ^ 2)).sum / vs.length

/-- Embeds `_stats_for_label` (features.py, lines 98-115): NaN placeholders
when the pixel mask is empty or holds no finite value, otherwise
mean / standard deviation / 10th / 50th / 90th percentile. -/
noncomputable def statsForLabel (values : List (List FVal))
    (labels : List (List Int)) (v : Int) : SegStats :=
  if ((ipixels labels).filter (fun p => igval labels p == v)).isEmpty then nanStats
  else if (maskVals values labels v).isEmpty then nanStats
  else
    ⟨some ((meanQ (maskVals values labels v) : ℚ) : ℝ),
      some (Real.sqrt ((varQ (maskVals values labels v) : ℚ) : ℝ)),
      some ((nanpercentile (maskVals values labels v) 10 : ℚ) : ℝ),
      some ((nanpercentile (maskVals values labels v) 50 : ℚ) : ℝ),
      some ((nanpercentile (maskVals values labels v) 90 : ℚ) : ℝ)⟩

/-- Embeds the row-building loop of `build_features` (features.py, lines
138-157): one record per label present in the rasterized grid, with the
per-band statistics. -/
noncomputable def buildFeaturesTable (bands : List (String × List (List FVal)))
    (labels : List (List Int)) : List (Int × List (String × SegStats)) :=
  (uniqueLabels labels).map (fun sid =>
    (sid, bands.map (fun b => (b.1, statsForLabel b.2 labels sid))))

/-- Embeds `build_features` including the guard raising when the
rasterization produced no positive label. -/
noncomputable def build_features (bands : List (String × List (List FVal)))
    (labels : List (List Int)) :
    Except String (List (Int × List (String × SegStats))) :=
  if uniqueLabels labels = [] then
    Except.error "Rasterização não gerou labels maiores que 0."
  else Except.ok (buildFeaturesTable bands labels)

/-! ### Lemmas about the feature table key set -/

theorem buildFeaturesTable_keys (bands : List (String × List (List FVal)))
    (labels : List (List Int)) :
    (buildFeaturesTable bands labels).map Prod.fst = uniqueLabels labels := by
  unfold buildFeaturesTable
  generalize uniqueLabels labels = uls
  induction uls with
  | nil => rfl
  | cons a t ih => simpa using ih

theorem mem_ipixels {g : List (List Int)} {p : Pixel} :
    p ∈ ipixels g ↔ p.1 < g.length ∧ p.2 < (g.getD p.1 []).length := by
  cases p with
  | mk i j =>
    simp only [ipixels, List.mem_flatMap, List.mem_range, List.mem_map]
    constructor
    · rintro ⟨a, ha, b, hb, hab⟩
      obtain ⟨rfl, rfl⟩ := Prod.mk.injEq .. ▸ hab
      exact ⟨ha, hb⟩
    · rintro ⟨hi, hj⟩
      exact ⟨i, hi, j, hj, rfl⟩

theorem igval_mem_row {g : List (List Int)} {p : Pixel} (hp : p ∈ ipixels g) :
    ∃ row ∈ g, igval g p ∈ row := by
  obtain ⟨h1, h2⟩ := mem_ipixels.mp hp
  refine ⟨g.getD p.1 [], ?_, ?_⟩
  · rw [List.getD_eq_getElem _ _ h1]
    exact List.getElem_mem h1
  · unfold igval
    rw [List.getD_eq_getElem _ _ h2]
    exact List.getElem_mem h2

/-- Painting a list of pixels with a value drawn from `vals` preserves the
invariant that every cell is 0 or one of `vals`. -/
theorem paint_preserves (v : Int) (vals : List Int) (hv : v ∈ vals)
    (ps : List Pixel) (g : List (List Int))
    (hg : ∀ row ∈ g, ∀ x ∈ row, x = 0 ∨ x ∈ vals) :
    ∀ row ∈ ps.foldl (fun g2 p => setPix g2 p v) g, ∀ x ∈ row, x = 0 ∨ x ∈ vals := by
  induction ps generalizing g with
  | nil => exact hg
  | cons p ps ih =>
    apply ih
    intro row hrow x hx
    simp only [setPix] at hrow
    split at hrow
    · rename_i row0 hget
      rcases List.mem_or_eq_of_mem_set hrow with hrow2 | rfl
      · exact hg row hrow2 x hx
      · rcases List.mem_or_eq_of_mem_set hx with hx2 | rfl
        · exact hg row0 (List.get?_mem hget) x hx2
        · exact Or.inr hv
    · exact hg row hrow x hx

theorem rasterize_cells (segs : List (List Pixel × Int)) (H W : ℕ) :
    ∀ row ∈ rasterizeSegments segs H W, ∀ x ∈ row,
      x = 0 ∨ x ∈ segs.map Prod.snd := by
  unfold rasterizeSegments
  have main : ∀ (l : List (List Pixel × Int)) (g : List (List Int)),
      (∀ s ∈ l, s.2 ∈ segs.map Prod.snd) →
      (∀ row ∈ g, ∀ x ∈ row, x = 0 ∨ x ∈ segs.map Prod.snd) →
      ∀ row ∈ l.foldl (fun g s => s.1.foldl (fun g2 p => setPix g2 p s.2) g) g,
        ∀ x ∈ row, x = 0 ∨ x ∈ segs.map Prod.snd := by
    intro l
    induction l with
    | nil => intro g _ hg; exact hg
    | cons s l ih =>
      intro g hl hg
      apply ih
      · intro t ht; exact hl t (List.mem_cons_of_mem s ht)
      · exact paint_preserves s.2 _ (hl s (List.mem_cons_self s l)) s.1 g hg
  apply main
  · intro s hs
    exact List.mem_map.mpr ⟨s, hs, rfl⟩
  · intro row hrow x hx
    have hr := List.eq_of_mem_replicate hrow
    subst hr
    exact Or.inl (List.eq_of_mem_replicate hx)

theorem mem_uniqueLabels {g : List (List Int)} {v : Int} :
    v ∈ uniqueLabels g ↔ v ∈ (ipixels g).map (igval g) ∧ 0 < v := by
  unfold uniqueLabels
  rw [(List.perm_insertionSort _ _).mem_iff, List.mem_dedup, List.mem_filter]
  simp

theorem uniqueLabels_subset_segIds (segs : List (List Pixel × Int)) (H W : ℕ) :
    ∀ v ∈ uniqueLabels (rasterizeSegments segs H W), v ∈ segs.map Prod.snd := by
  intro v hv
  obtain ⟨hvmem, hvpos⟩ := mem_uniqueLabels.mp hv
  obtain ⟨p, hp, hpv⟩ := List.mem_map.mp hvmem
  obtain ⟨row, hrow, hcell⟩ := igval_mem_row hp
  rcases rasterize_cells segs H W row hrow _ hcell with h0 | hmem
  · rw [hpv] at h0
    omega
  · rw [hpv] at hmem
    exact hmem

theorem statsForLabel_nan (values : List (List FVal)) (labels : List (List Int))
    (v : Int) (h : maskVals values labels v = []) :
    statsForLabel values labels v = nanStats := by
  unfold statsForLabel
  split
  · rfl
  · rw [if_pos (by simp [h])]

/-- C2 counterexample: with a segment layer holding segment_ids {2, 1} where
the polygon of segment 2 rasterizes to zero pixels (a boundary sliver covering
no pixel representative point), the feature table omits segment 2 entirely —
its key never appears — contradicting the claimed key-set equality and the
claimed NaN-placeholder record. -/
theorem claim_C2_counterexample :
    ((2 : Int) ∈ ([([], 2), ([(0, 0)], 1)] : List (List Pixel × Int)).map Prod.snd)
    ∧ (∀ row ∈ buildFeaturesTable [("B02", [[some 0]])]
        (rasterizeSegments [([], 2), ([(0, 0)], 1)] 1 1), row.1 ≠ 2) := by
  constructor
  · decide
  · intro row hrow
    have hmem : row.1 ∈ (buildFeaturesTable [("B02", [[some 0]])]
        (rasterizeSegments [([], 2), ([(0, 0)], 1)] 1 1)).map Prod.fst :=
      List.mem_map.mpr ⟨row, hrow, rfl⟩
    rw [buildFeaturesTable_keys] at hmem
    have huls : uniqueLabels (rasterizeSegments [([], 2), ([(0, 0)], 1)] 1 1) = [1] := by
      decide
    rw [huls] at hmem
    intro h2
    rw [h2] at hmem
    simp at hmem

/-- C2 amended: the feature-table key list equals the sorted list of positive
labels present in the rasterized grid — always a subset of the Segment set's
ids, but a segment whose polygon rasterizes to zero pixels is omitted rather
than kept with NaN placeholders.  A segment that did receive pixels but whose
band values are all non-finite still appears, with NaN placeholder
statistics. -/
theorem claim_C2_feature_keys (bands : List (String × List (List FVal)))
    (segs : List (List Pixel × Int)) (H W : ℕ) :
    ((buildFeaturesTable bands (rasterizeSegments segs H W)).map Prod.fst =
      uniqueLabels (rasterizeSegments segs H W))
    ∧ (∀ v ∈ uniqueLabels (rasterizeSegments segs H W), v ∈ segs.map Prod.snd)
    ∧ (∀ v ∈ uniqueLabels (rasterizeSegments segs H W),
        (∀ b ∈ bands, maskVals b.2 (rasterizeSegments segs H W) v = []) →
        (v, bands.map (fun b => (b.1, nanStats))) ∈
          buildFeaturesTable bands (rasterizeSegments segs H W)) := by
  refine ⟨buildFeaturesTable_keys bands _, uniqueLabels_subset_segIds segs H W, ?_⟩
  intro v hv hnan
  unfold buildFeaturesTable
  apply List.mem_map.mpr
  refine ⟨v, hv, ?_⟩
  congr 1
  apply List.map_congr_left
  intro b hb
  rw [statsForLabel_nan b.2 _ v (hnan b hb)]

/-- Witness for the amended C2: a single segment whose only pixel holds a
non-finite band value appears in the table with NaN placeholders. -/
theorem claim_C2_feature_keys_witness :
    ((5 : Int), [("B02", nanStats)]) ∈
      buildFeaturesTable [("B02", [[(none : FVal)]])]
        (rasterizeSegments [([(0, 0)], 5)] 1 1) := by
  have h := (claim_C2_feature_keys [("B02", [[(none : FVal)]])] [([(0, 0)], 5)] 1 1).2.2
    5 (by decide) (by decide)
  simpa using h

/-! ## Sample store (services/samples.py, project-aware definitions)

The store file `samples.geojson` holds rows with columns
segment_id / classe / usuario / ts / geometry; after
`pd.to_numeric(..., errors="coerce").astype("Int64")` a segment id is an
`Option Int` (`none` = NA).  Geometries are opaque handles.  The
`existing_idx` and `seg_idx` dictionaries are built from
`frame[["segment_id"]].dropna().reset_index(drop=True).iterrows()`, so the
positions they store are positions in the NA-dropped sequence — embedded
faithfully by enumerating `filterMap id` — while `samples.at[idx, ...]` and
`seg.iloc[pos]` index the full frame.  Python dict later-wins construction
is embedded by prepending, with `List.lookup` finding the most recent
binding first. -/

abbrev Geom := Int

structure SampleRow where
  segment_id : Option Int
  classe : String
  usuario : Option String
  ts : String
  geom : Geom
deriving DecidableEq

structure FeatureInput where
  segment_id : Option Int
  classe : Option String
  usuario : Option String
  ts : Option String
  geometry : Option Geom
deriving DecidableEq

abbrev SegLayer := List (Option Int × Geom)

def isPySpace (c : Char) : Bool :=
  c == ' ' || c == '\t' || c == '\n' || c == '\r' ||
  c == '\x0b' || c == '\x0c'

/-- Embeds Python str.strip(). -/
def pyStrip (s : String) : String :=
  String.mk (((s.toList.dropWhile isPySpace).reverse.dropWhile isPySpace).reverse)

/-- Embeds Python str.lower() (ASCII-adequate model). -/
def pyLower (s : String) : String := String.mk (s.toList.map Char.toLower)

/-- Embeds the class normalization str(classe).strip().lower(). -/
def stripLower (s : String) : String := pyLower (pyStrip s)

/-- Embeds a Python dict comprehension over the enumerated NA-dropped id
column: later duplicate keys shadow earlier ones (prepend + first-match
lookup). -/
def buildIdx (sids : List (Option Int)) : List (Int × ℕ) :=
  (sids.filterMap id).enum.foldl (fun d p => (p.2, p.1) :: d) []

/-- The UnknownSegment error raised when a geometry-less feature references
a segment id absent from the segment layer. -/
def unknownSegMsg : String := "segment_id não encontrado na camada de segmentos."

/-- One row assembled by the upsert loop before application. -/
structure BuiltRow where
  segment_id : Int
  classe : String
  usuario : Option String
  ts : String
  geom : Geom
deriving DecidableEq

/-- Embeds ts = props.get("ts") or _now_iso() (empty string is falsy). -/
def tsOf (f : FeatureInput) (now : String) : String :=
  match f.ts with
  | some t => if t = "" then now else t
  | none => now

/-- Embeds usuario = str(usuario).strip() if usuario else None. -/
def usuarioOf (f : FeatureInput) : Option String :=
  match f.usuario with
  | some u => if u = "" then none else some (pyStrip u)
  | none => none

/-- Embeds one iteration of the feature-validation loop of
`upsert_samples_from_features` (samples.py, lines 302-329): missing
segment_id/classe raise, ts falls back to now, usuario is stripped or
dropped, geometry comes from the feature or from the segment layer via
seg_idx, raising when the id is unknown. -/
def mkRow (seg : SegLayer) (segIdx : List (Int × ℕ)) (now : String)
    (f : FeatureInput) : Except String BuiltRow :=
  match f.segment_id, f.classe with
  | none, _ => Except.error "Cada feature deve conter segment_id e classe."
  | some _, none => Except.error "Cada feature deve conter segment_id e classe."
  | some sid, some classe =>
    match f.geometry with
    | some geom =>
      Except.ok ⟨sid, stripLower classe, usuarioOf f, tsOf f now, geom⟩
    | none =>
      match List.lookup sid segIdx with
      | none => Except.error unknownSegMsg
      | some pos =>
        match seg.get? pos with
        | some r => Except.ok ⟨sid, stripLower classe, usuarioOf f, tsOf f now, r.2⟩
        | none => Except.error "posição fora da camada de segmentos."

/-- Sequential processing with fail-fast semantics, as the Python for-loop
raises at the first bad feature. -/
def mapExcept {α β : Type} (g : α → Except String β) : List α → Except String (List β)
  | [] => Except.ok []
  | x :: xs =>
    match g x with
    | Except.error e => Except.error e
    | Except.ok y =>
      match mapExcept g xs with
      | Except.error e => Except.error e
      | Except.ok ys => Except.ok (y :: ys)

def rowToSample (r : BuiltRow) : SampleRow :=
  ⟨some r.segment_id, r.classe, r.usuario, r.ts, r.geom⟩

structure UpsertState where
  samples : List SampleRow
  dict : List (Int × ℕ)
  created : ℕ
  updated : ℕ
deriving DecidableEq

/-- Embeds one iteration of the apply loop (samples.py, lines 335-349):
known ids overwrite the row at the dict position in place, unknown ids are
appended and recorded at position len-1. -/
def applyRow (st : UpsertState) (r : BuiltRow) : UpsertState :=
  match List.lookup r.segment_id st.dict with
  | some idx =>
    { st with samples := st.samples.set idx (rowToSample r),
              updated := st.updated + 1 }
  | none =>
    { st with samples := st.samples ++ [rowToSample r],
              dict := (r.segment_id, st.samples.length) :: st.dict,
              created := st.created + 1 }

/-- Embeds `upsert_samples_from_features` (samples.py, lines 276-353) given
the already-read segment layer and store: validate and resolve every
feature, then either create the store wholesale (empty-store fast path,
everything counts as created) or upsert row by row. -/
def upsert_samples_from_features (seg : SegLayer) (store : List SampleRow)
    (feats : List FeatureInput) (now : String) :
    Except String (List SampleRow × ℕ × ℕ) :=
  let segIdx := buildIdx (seg.map Prod.fst)
  let existingIdx := buildIdx (store.map (fun r => r.segment_id))
  match mapExcept (mkRow seg segIdx now) feats with
  | Except.error e => Except.error e
  | Except.ok rows =>
    if store.length = 0 then
      Except.ok (rows.map rowToSample, rows.length, 0)
    else
      let final := rows.foldl applyRow ⟨store, existingIdx, 0, 0⟩
      Except.ok (final.samples, final.created, final.updated)

/-- The project file system seen by the sample store: the samples file and
the segment layer file, either possibly absent. -/
structure ProjectFS where
  samplesFile : Option (List SampleRow)
  segmentsFile : Option SegLayer
deriving DecidableEq

/-- Embeds `_read_samples` (samples.py, lines 251-261): the stored rows if
the file exists, else an empty frame (the segments file is consulted only
for its CRS, and its absence is swallowed). -/
def readSamples (fs : ProjectFS) : List SampleRow :=
  match fs.samplesFile with
  | some rows => rows
  | none => []

/-- Embeds the file-level upsert: `_read_segments` raises if no segment
layer exists; the atomic write replaces the samples file only at the very
end, so any error leaves the file system unchanged. -/
def upsertFS (fs : ProjectFS) (feats : List FeatureInput) (now : String) :
    Except String (ProjectFS × ℕ × ℕ) :=
  match fs.segmentsFile with
  | none => Except.error "Camada de segmentos não encontrada."
  | some seg =>
    match upsert_samples_from_features seg (readSamples fs) feats now with
    | Except.error e => Except.error e
    | Except.ok (rows, c, u) =>
      Except.ok ({ fs with samplesFile := some rows }, c, u)

/-- Embeds `list_samples` (samples.py, lines 378-394): empty store short
circuits; otherwise optional exact-class filter (on the normalized class)
and optional bbox intersection filter (geometry predicate external). -/
def list_samples (inter : Geom → ℚ × ℚ × ℚ × ℚ → Bool) (fs : ProjectFS)
    (classe : Option String) (bbox : Option (List ℚ)) : List SampleRow :=
  let gdf := readSamples fs
  if gdf.length = 0 then gdf
  else
    let gdf1 := match classe with
      | some c => if c = "" then gdf else gdf.filter (fun r => r.classe == stripLower c)
      | none => gdf
    match bbox with
    | some [minx, miny, maxx, maxy] =>
      gdf1.filter (fun r => inter r.geom (minx, miny, maxx, maxy))
    | _ => gdf1

/-- Embeds `delete_sample` (samples.py, lines 397-410): empty store returns
False without writing; otherwise drop rows with the id and write back only
when something was dropped. -/
def delete_sample (fs : ProjectFS) (sid : Int) : Bool × ProjectFS :=
  let gdf := readSamples fs
  if gdf.length = 0 then (false, fs)
  else
    let gdf2 := gdf.filter (fun r => !(r.segment_id == some sid))
    if gdf2.length < gdf.length then
      (true, { fs with samplesFile := some gdf2 })
    else (false, fs)

/-! ### Dictionary and mapExcept lemmas -/

theorem lookup_some_mem {k : Int} {v : ℕ} {d : List (Int × ℕ)}
    (h : List.lookup k d = some v) : (k, v) ∈ d := by
  induction d with
  | nil => simp [List.lookup] at h
  | cons p d ih =>
    obtain ⟨a, b⟩ := p
    simp only [List.lookup] at h
    split at h
    · rename_i hba
      have hk : k = a := by simpa using hba
      have hv : b = v := by simpa using h
      subst hk
      subst hv
      exact List.mem_cons_self _ _
    · exact List.mem_cons_of_mem _ (ih h)

theorem lookup_isSome_of_mem {k : Int} {v : ℕ} {d : List (Int × ℕ)}
    (h : (k, v) ∈ d) : (List.lookup k d).isSome := by
  induction d with
  | nil => simp at h
  | cons p d ih =>
    obtain ⟨a, b⟩ := p
    simp only [List.lookup]
    split
    · simp
    · rename_i hba
      rcases List.mem_cons.mp h with heq | hmem
      · obtain ⟨h1, h2⟩ := Prod.mk.injEq .. ▸ heq
        subst h1
        simp at hba
      · exact ih hmem

theorem foldl_prepend_eq {α β : Type} (f : α → β) (l : List α) (init : List β) :
    l.foldl (fun d x => f x :: d) init = (l.map f).reverse ++ init := by
  induction l generalizing init with
  | nil => rfl
  | cons x xs ih =>
    simp only [List.foldl_cons, List.map_cons, List.reverse_cons, List.append_assoc]
    rw [ih]
    rfl

theorem buildIdx_eq (sids : List (Option Int)) :
    buildIdx sids = ((sids.filterMap id).enum.map (fun p => (p.2, p.1))).reverse ++ [] := by
  unfold buildIdx
  exact foldl_prepend_eq _ _ _

theorem mem_buildIdx {sids : List (Option Int)} {k : Int} {i : ℕ} :
    (k, i) ∈ buildIdx sids ↔ (i, k) ∈ (sids.filterMap id).enum := by
  rw [buildIdx_eq]
  simp only [List.append_nil, List.mem_reverse, List.mem_map]
  constructor
  · rintro ⟨⟨a, b⟩, hab, heq⟩
    obtain ⟨h1, h2⟩ := Prod.mk.injEq .. ▸ heq
    subst h1
    subst h2
    exact hab
  · intro h
    exact ⟨(i, k), h, rfl⟩

theorem lookup_buildIdx_get {sids : List (Option Int)} {k : Int} {p : ℕ}
    (h : List.lookup k (buildIdx sids) = some p) :
    (sids.filterMap id).get? p = some k := by
  have hmem := lookup_some_mem h
  exact List.mk_mem_enum_iff_get?.mp (mem_buildIdx.mp hmem)

theorem lookup_buildIdx_lt {sids : List (Option Int)} {k : Int} {p : ℕ}
    (h : List.lookup k (buildIdx sids) = some p) :
    p < (sids.filterMap id).length := by
  have := lookup_buildIdx_get h
  exact List.get?_eq_some.mp this |>.1

theorem lookup_buildIdx_inj {sids : List (Option Int)} {k1 k2 : Int} {p : ℕ}
    (h1 : List.lookup k1 (buildIdx sids) = some p)
    (h2 : List.lookup k2 (buildIdx sids) = some p) : k1 = k2 := by
  have e1 := lookup_buildIdx_get h1
  have e2 := lookup_buildIdx_get h2
  rw [e1] at e2
  exact Option.some.inj e2

theorem lookup_buildIdx_isSome {sids : List (Option Int)} {k : Int}
    (h : some k ∈ sids) : (List.lookup k (buildIdx sids)).isSome := by
  have hk : k ∈ sids.filterMap id := by
    simp only [List.mem_filterMap, id]
    exact ⟨some k, h, rfl⟩
  obtain ⟨n, hn⟩ := List.mem_iff_get?.mp hk
  exact lookup_isSome_of_mem (mem_buildIdx.mpr (List.mk_mem_enum_iff_get?.mpr hn))

theorem lookup_buildIdx_none {sids : List (Option Int)} {k : Int}
    (h : List.lookup k (buildIdx sids) = none) : some k ∉ sids := by
  intro hmem
  have := lookup_buildIdx_isSome hmem
  rw [h] at this
  simp at this

theorem mapExcept_forall2 {α β : Type} {g : α → Except String β} :
    ∀ {l : List α} {rs : List β}, mapExcept g l = Except.ok rs →
      List.Forall₂ (fun x y => g x = Except.ok y) l rs := by
  intro l
  induction l with
  | nil =>
    intro rs h
    simp only [mapExcept] at h
    obtain rfl := (Except.ok.injEq .. ▸ h).symm
    exact List.Forall₂.nil
  | cons x xs ih =>
    intro rs h
    simp only [mapExcept] at h
    split at h
    · exact absurd h (by simp)
    · rename_i y hy
      split at h
      · exact absurd h (by simp)
      · rename_i ys hys
        obtain rfl : y :: ys = rs := by simpa using h
        exact List.Forall₂.cons hy (ih hys)

theorem forall2_mem_left {α β : Type} {R : α → β → Prop} :
    ∀ {l : List α} {rs : List β}, List.Forall₂ R l rs → ∀ x ∈ l, ∃ y, R x y := by
  intro l rs h
  induction h with
  | nil => intro x hx; simp at hx
  | cons hxy hrest ih =>
    intro x hx
    rcases List.mem_cons.mp hx with rfl | hmem
    · exact ⟨_, hxy⟩
    · exact ih x hmem

theorem mapExcept_result {α β : Type} (g : α → Except String β) (l : List α) :
    (∃ rs, mapExcept g l = Except.ok rs) ∨
    (∃ e, mapExcept g l = Except.error e ∧ ∃ x ∈ l, g x = Except.error e) := by
  induction l with
  | nil => exact Or.inl ⟨[], rfl⟩
  | cons x xs ih =>
    cases hx : g x with
    | error e =>
      refine Or.inr ⟨e, ?_, x, List.mem_cons_self x xs, hx⟩
      simp only [mapExcept, hx]
    | ok y =>
      rcases ih with ⟨rs, hrs⟩ | ⟨e, he, z, hz, hze⟩
      · exact Or.inl ⟨y :: rs, by simp only [mapExcept, hx, hrs]⟩
      · exact Or.inr ⟨e, by simp only [mapExcept, hx, he], z,
          List.mem_cons_of_mem x hz, hze⟩

theorem mkRow_ok_or_unknown (seg : SegLayer) (now : String) (x : FeatureInput)
    (h1 : x.segment_id ≠ none) (h2 : x.classe ≠ none) :
    (∃ r, mkRow seg (buildIdx (seg.map Prod.fst)) now x = Except.ok r) ∨
    mkRow seg (buildIdx (seg.map Prod.fst)) now x = Except.error unknownSegMsg := by
  obtain ⟨sid, hsid⟩ := Option.ne_none_iff_exists'.mp h1
  obtain ⟨cls, hcls⟩ := Option.ne_none_iff_exists'.mp h2
  unfold mkRow
  simp only [hsid, hcls]
  cases hg : x.geometry with
  | some geom => exact Or.inl ⟨_, rfl⟩
  | none =>
    cases hlk : List.lookup sid (buildIdx (seg.map Prod.fst)) with
    | none => simp only [hlk]; exact Or.inr trivial
    | some pos =>
      have hlt : pos < seg.length := by
        have hl1 := lookup_buildIdx_lt hlk
        have hl2 := List.length_filterMap_le id (seg.map Prod.fst)
        simp only [List.length_map] at hl2
        omega
      obtain ⟨r, hr⟩ : ∃ r, seg.get? pos = some r :=
        ⟨seg.get ⟨pos, hlt⟩, List.get?_eq_some.mpr ⟨hlt, rfl⟩⟩
      simp only [hlk, hr]
      exact Or.inl ⟨_, rfl⟩

/-- C10: on a project whose sample store file does not exist, list_samples
returns an empty collection and delete_sample returns False, both without
raising, regardless of whether the segment layer exists; neither operation
writes a store file (delete returns the file system unchanged, list performs
no write). -/
theorem claim_C10_missing_store (fs : ProjectFS) (hs : fs.samplesFile = none)
    (inter : Geom → ℚ × ℚ × ℚ × ℚ → Bool) (classe : Option String)
    (bbox : Option (List ℚ)) (sid : Int) :
    list_samples inter fs classe bbox = [] ∧ delete_sample fs sid = (false, fs) := by
  have hread : readSamples fs = [] := by
    unfold readSamples
    rw [hs]
  constructor
  · simp only [list_samples, hread]
    rfl
  · simp only [delete_sample, hread]
    rfl

/-- Witness for C10 on a concrete project with neither a samples file nor a
segment layer, with both filters supplied. -/
theorem claim_C10_missing_store_witness :
    list_samples (fun _ _ => true) ⟨none, none⟩ (some "mata") (some [0, 0, 1, 1]) = []
    ∧ delete_sample ⟨none, none⟩ 7 = (false, ⟨none, none⟩) :=
  claim_C10_missing_store ⟨none, none⟩ rfl (fun _ _ => true) (some "mata")
    (some [0, 0, 1, 1]) 7

/-- C9: when a well-formed upsert batch contains a geometry-less input whose
segment_id does not occur in the project's Segment set, the upsert fails
with the unknown-segment error; because the atomic store write happens only
after the whole validation loop, no record of the batch — not even the valid
ones — is written (the function returns no new file system state). -/
theorem claim_C9_unknown_segment (fs : ProjectFS) (seg : SegLayer)
    (feats : List FeatureInput) (now : String)
    (hseg : fs.segmentsFile = some seg)
    (hwf : ∀ x ∈ feats, x.segment_id ≠ none ∧ x.classe ≠ none)
    (f : FeatureInput) (hf : f ∈ feats) (hgeom : f.geometry = none)
    (sid : Int) (hsid : f.segment_id = some sid)
    (hunk : (some sid) ∉ seg.map Prod.fst) :
    upsertFS fs feats now = Except.error unknownSegMsg := by
  have hcls : f.classe ≠ none := (hwf f hf).2
  obtain ⟨cls, hclse⟩ := Option.ne_none_iff_exists'.mp hcls
  have hlkn : List.lookup sid (buildIdx (seg.map Prod.fst)) = none := by
    cases hlk : List.lookup sid (buildIdx (seg.map Prod.fst)) with
    | none => rfl
    | some p =>
      have := lookup_buildIdx_get hlk
      have hmem : sid ∈ (seg.map Prod.fst).filterMap id := List.get?_mem this
      simp only [List.mem_filterMap, id] at hmem
      obtain ⟨o, ho, rfl⟩ := hmem
      exact absurd ho hunk
  have hbad : mkRow seg (buildIdx (seg.map Prod.fst)) now f =
      Except.error unknownSegMsg := by
    unfold mkRow
    simp only [hsid, hclse, hgeom, hlkn]
  have hres := mapExcept_result (mkRow seg (buildIdx (seg.map Prod.fst)) now) feats
  rcases hres with ⟨rs, hrs⟩ | ⟨e, he, z, hz, hze⟩
  · have hall := mapExcept_forall2 hrs
    obtain ⟨r, hr⟩ := forall2_mem_left hall f hf
    rw [hbad] at hr
    exact absurd hr (by simp)
  · have hze2 : e = unknownSegMsg := by
      rcases mkRow_ok_or_unknown seg now z (hwf z hz).1 (hwf z hz).2 with ⟨r, hok⟩ | herr
      · rw [hok] at hze
        exact absurd hze (by simp)
      · rw [herr] at hze
        simpa using hze.symm
    subst hze2
    simp only [upsertFS, hseg, upsert_samples_from_features, he]

/-- Witness for C9: a project with a one-segment layer (id 1) and a
geometry-less batch input referencing the unknown id 2. -/
theorem claim_C9_unknown_segment_witness :
    upsertFS ⟨none, some [(some 1, 0)]⟩
      [⟨some 2, some "mata", none, none, none⟩] "t0" =
      Except.error unknownSegMsg :=
  claim_C9_unknown_segment ⟨none, some [(some 1, 0)]⟩ [(some 1, 0)]
    [⟨some 2, some "mata", none, none, none⟩] "t0" rfl (by decide)
    ⟨some 2, some "mata", none, none, none⟩ (by decide) rfl 2 rfl (by decide)

/-! ### Machinery for the upsert idempotency claim -/

theorem lookup_cons_eq (k a : Int) (b : ℕ) (d : List (Int × ℕ)) :
    List.lookup k ((a, b) :: d) = if k = a then some b else List.lookup k d := by
  by_cases h : k = a
  · subst h
    simp [List.lookup]
  · simp [List.lookup, beq_eq_false_iff_ne.mpr h, h]

theorem set_self_of_get? {α : Type} : ∀ (l : List α) (i : ℕ) (a : α),
    l.get? i = some a → l.set i a = l := by
  intro l
  induction l with
  | nil => intro i a h; simp at h
  | cons x xs ih =>
    intro i a h
    cases i with
    | zero =>
      simp only [List.get?] at h
      obtain rfl := Option.some.inj h
      rfl
    | succ n =>
      simp only [List.get?] at h
      simp [List.set, ih n a h]

theorem get?_filterMap_all_some : ∀ (l : List (Option Int)),
    (∀ x ∈ l, x ≠ none) → ∀ i, (l.filterMap id).get? i = (l.get? i).bind id := by
  intro l
  induction l with
  | nil => intro _ i; cases i <;> rfl
  | cons x xs ih =>
    intro h i
    cases x with
    | none => exact absurd rfl (h none (List.mem_cons_self _ _))
    | some a =>
      have hx : xs.filterMap id = xs.filterMap id := rfl
      cases i with
      | zero => simp
      | succ n =>
        simp only [List.filterMap_cons_some, List.get?]
        exact ih (fun y hy => h y (List.mem_cons_of_mem _ hy)) n

/-- lookup positions are in range and two keys never share a position. -/
def DictOk (st : UpsertState) : Prop :=
  (∀ k p, List.lookup k st.dict = some p → p < st.samples.length)
  ∧ (∀ k1 k2 p, List.lookup k1 st.dict = some p →
      List.lookup k2 st.dict = some p → k1 = k2)

/-- The dictionary maps k to a position whose row carries id k. -/
def Owns (st : UpsertState) (k : Int) : Prop :=
  ∃ p, List.lookup k st.dict = some p ∧
    ∃ row, st.samples.get? p = some row ∧ row.segment_id = some k

theorem applyRow_dictOk_owns (st : UpsertState) (r : BuiltRow) (hd : DictOk st) :
    DictOk (applyRow st r)
    ∧ (∀ k, Owns st k → Owns (applyRow st r) k)
    ∧ Owns (applyRow st r) r.segment_id := by
  unfold applyRow
  cases hlk : List.lookup r.segment_id st.dict with
  | some idx =>
    have hidx : idx < st.samples.length := hd.1 _ _ hlk
    refine ⟨⟨?_, hd.2⟩, ?_, ?_⟩
    · intro k p h
      simp only [List.length_set]
      exact hd.1 k p h
    · rintro k ⟨p, hp, row, hrow, hsid⟩
      by_cases hpi : p = idx
      · subst hpi
        have hk : k = r.segment_id := hd.2 k r.segment_id p hp hlk
        refine ⟨p, hp, rowToSample r, ?_, ?_⟩
        · exact List.get?_set_eq_of_lt _ hidx
        · rw [rowToSample, hk]
      · refine ⟨p, hp, row, ?_, hsid⟩
        rw [List.get?_set_ne _ _ (Ne.symm hpi)]
        exact hrow
    · refine ⟨idx, hlk, rowToSample r, ?_, rfl⟩
      exact List.get?_set_eq_of_lt _ hidx
  | none =>
    refine ⟨⟨?_, ?_⟩, ?_, ?_⟩
    · intro k p h
      rw [lookup_cons_eq] at h
      simp only [List.length_append, List.length_cons, List.length_nil]
      split at h
      · obtain rfl := Option.some.inj h
        omega
      · have := hd.1 k p h
        omega
    · intro k1 k2 p h1 h2
      rw [lookup_cons_eq] at h1 h2
      split at h1 <;> split at h2
      · rename_i e1 e2
        rw [e1, e2]
      · rename_i e1 e2
        obtain rfl := Option.some.inj h1
        have := hd.1 k2 _ h2
        omega
      · rename_i e1 e2
        obtain rfl := Option.some.inj h2
        have := hd.1 k1 _ h1
        omega
      · exact hd.2 k1 k2 p h1 h2
    · rintro k ⟨p, hp, row, hrow, hsid⟩
      have hplt : p < st.samples.length := by
        have := List.get?_eq_some.mp hrow
        exact this.1
      refine ⟨p, ?_, row, ?_, hsid⟩
      · rw [lookup_cons_eq]
        split
        · rename_i he
          subst he
          rw [hp] at hlk
          simp at hlk
        · exact hp
      · rw [List.get?_append hplt]
        exact hrow
    · refine ⟨st.samples.length, ?_, rowToSample r, ?_, rfl⟩
      · rw [lookup_cons_eq, if_pos rfl]
      · exact List.get?_concat_length _ _

theorem foldl_applyRow_owns : ∀ (rows : List BuiltRow) (st : UpsertState),
    DictOk st →
    DictOk (rows.foldl applyRow st)
    ∧ (∀ k, Owns st k → Owns (rows.foldl applyRow st) k)
    ∧ (∀ r ∈ rows, Owns (rows.foldl applyRow st) r.segment_id) := by
  intro rows
  induction rows with
  | nil =>
    intro st hd
    exact ⟨hd, fun _ h => h, by simp⟩
  | cons r rows ih =>
    intro st hd
    obtain ⟨hd1, hpres, hown⟩ := applyRow_dictOk_owns st r hd
    obtain ⟨ihd, ihpres, ihall⟩ := ih (applyRow st r) hd1
    refine ⟨ihd, ?_, ?_⟩
    · intro k hk
      exact ihpres k (hpres k hk)
    · intro s hs
      rcases List.mem_cons.mp hs with rfl | hmem
      · exact ihpres s.segment_id hown
      · exact ihall s hmem

theorem foldl_applyRow_counts : ∀ (rows : List BuiltRow) (st : UpsertState),
    (∀ r ∈ rows, (List.lookup r.segment_id st.dict).isSome) →
    (rows.foldl applyRow st).created = st.created
    ∧ (rows.foldl applyRow st).updated = st.updated + rows.length
    ∧ (rows.foldl applyRow st).dict = st.dict := by
  intro rows
  induction rows with
  | nil => intro st _; exact ⟨rfl, rfl, rfl⟩
  | cons r rows ih =>
    intro st hall
    have hr := hall r (List.mem_cons_self r rows)
    obtain ⟨idx, hidx⟩ := Option.isSome_iff_exists.mp hr
    have hstep : applyRow st r =
        { st with samples := st.samples.set idx (rowToSample r),
                  updated := st.updated + 1 } := by
      unfold applyRow
      rw [hidx]
    rw [List.foldl_cons, hstep]
    have hall2 : ∀ s ∈ rows,
        (List.lookup s.segment_id ({ st with
          samples := st.samples.set idx (rowToSample r),
          updated := st.updated + 1 } : UpsertState).dict).isSome := by
      intro s hs
      exact hall s (List.mem_cons_of_mem r hs)
    obtain ⟨hc, hu, hdct⟩ := ih _ hall2
    refine ⟨hc, ?_, hdct⟩
    rw [hu]
    simp only [List.length_cons]
    omega

theorem length_le_foldl_applyRow : ∀ (rows : List BuiltRow) (st : UpsertState),
    st.samples.length ≤ (rows.foldl applyRow st).samples.length := by
  intro rows
  induction rows with
  | nil => intro st; exact le_rfl
  | cons r rows ih =>
    intro st
    refine le_trans ?_ (ih (applyRow st r))
    unfold applyRow
    cases List.lookup r.segment_id st.dict with
    | some idx => simp
    | none => simp

/-- The cleanliness invariant: sample rows have pairwise distinct non-null
segment ids, positions are consistent, and a missing dictionary key means a
missing id. -/
def GoodState (st : UpsertState) : Prop :=
  (∀ r ∈ st.samples, r.segment_id ≠ none)
  ∧ (st.samples.map (fun r => r.segment_id)).Nodup
  ∧ DictOk st
  ∧ (∀ k p, List.lookup k st.dict = some p →
      ∃ row, st.samples.get? p = some row ∧ row.segment_id = some k)
  ∧ (∀ k, List.lookup k st.dict = none →
      some k ∉ st.samples.map (fun r => r.segment_id))

theorem applyRow_good (st : UpsertState) (r : BuiltRow) (hg : GoodState st) :
    GoodState (applyRow st r)
    ∧ ((applyRow st r).samples.map (fun s => s.segment_id) =
        st.samples.map (fun s => s.segment_id)
      ∨ (applyRow st r).samples.map (fun s => s.segment_id) =
        st.samples.map (fun s => s.segment_id) ++ [some r.segment_id]) := by
  obtain ⟨hnn, hnd, hdo, hpos, hmiss⟩ := hg
  unfold applyRow
  cases hlk : List.lookup r.segment_id st.dict with
  | some idx =>
    obtain ⟨row, hrow, hsid⟩ := hpos r.segment_id idx hlk
    have hmap : (st.samples.set idx (rowToSample r)).map (fun s => s.segment_id) =
        st.samples.map (fun s => s.segment_id) := by
      rw [List.map_set]
      apply set_self_of_get?
      rw [List.get?_map, hrow]
      simp [hsid, rowToSample]
    have hsets : ∀ s ∈ st.samples.set idx (rowToSample r),
        s ∈ st.samples ∨ s = rowToSample r := fun s hs =>
      List.mem_or_eq_of_mem_set hs
    refine ⟨⟨?_, ?_, ?_, ?_, ?_⟩, Or.inl hmap⟩
    · intro s hs
      rcases hsets s hs with h | rfl
      · exact hnn s h
      · simp [rowToSample]
    · simpa [hmap] using hnd
    · constructor
      · intro k p h
        simp only [List.length_set]
        exact hdo.1 k p h
      · exact hdo.2
    · intro k p h
      by_cases hpi : p = idx
      · subst hpi
        have hk : k = r.segment_id := hdo.2 k r.segment_id p h hlk
        refine ⟨rowToSample r, ?_, ?_⟩
        · exact List.get?_set_eq_of_lt _ (hdo.1 _ _ hlk)
        · rw [hk]
          rfl
      · obtain ⟨row2, hrow2, hsid2⟩ := hpos k p h
        refine ⟨row2, ?_, hsid2⟩
        rw [List.get?_set_ne _ _ (Ne.symm hpi)]
        exact hrow2
    · intro k h
      rw [hmap]
      exact hmiss k h
  | none =>
    have hnotmem : some r.segment_id ∉ st.samples.map (fun s => s.segment_id) :=
      hmiss r.segment_id hlk
    have hmap : (st.samples ++ [rowToSample r]).map (fun s => s.segment_id) =
        st.samples.map (fun s => s.segment_id) ++ [some r.segment_id] := by
      simp [rowToSample]
    refine ⟨⟨?_, ?_, ?_, ?_, ?_⟩, Or.inr hmap⟩
    · intro s hs
      rcases List.mem_append.mp hs with h | h
      · exact hnn s h
      · simp only [List.mem_singleton] at h
        subst h
        simp [rowToSample]
    · rw [hmap]
      rw [List.nodup_append]
      refine ⟨hnd, List.nodup_singleton _, ?_⟩
      intro a ha hb
      simp only [List.mem_singleton] at hb
      subst hb
      exact hnotmem ha
    · constructor
      · intro k p h
        rw [lookup_cons_eq] at h
        simp only [List.length_append, List.length_cons, List.length_nil]
        split at h
        · obtain rfl := Option.some.inj h
          omega
        · have := hdo.1 k p h
          omega
      · intro k1 k2 p h1 h2
        rw [lookup_cons_eq] at h1 h2
        split at h1 <;> split at h2
        · rename_i e1 e2
          rw [e1, e2]
        · rename_i e1 e2
          obtain rfl := Option.some.inj h1
          have := hdo.1 k2 _ h2
          omega
        · rename_i e1 e2
          obtain rfl := Option.some.inj h2
          have := hdo.1 k1 _ h1
          omega
        · exact hdo.2 k1 k2 p h1 h2
    · intro k p h
      rw [lookup_cons_eq] at h
      split at h
      · rename_i he
        subst he
        obtain rfl := Option.some.inj h
        exact ⟨rowToSample r, List.get?_concat_length _ _, rfl⟩
      · obtain ⟨row2, hrow2, hsid2⟩ := hpos k p h
        have hplt : p < st.samples.length := (List.get?_eq_some.mp hrow2).1
        refine ⟨row2, ?_, hsid2⟩
        rw [List.get?_append hplt]
        exact hrow2
    · intro k h
      rw [lookup_cons_eq] at h
      split at h
      · simp at h
      · rename_i hne
        rw [hmap]
        intro hmem
        rcases List.mem_append.mp hmem with hmm | hmm
        · exact hmiss k h hmm
        · simp only [List.mem_singleton, Option.some.injEq] at hmm
          exact hne hmm

theorem foldl_applyRow_good : ∀ (rows : List BuiltRow) (st : UpsertState),
    GoodState st → GoodState (rows.foldl applyRow st) := by
  intro rows
  induction rows with
  | nil => intro st hg; exact hg
  | cons r rows ih =>
    intro st hg
    exact ih _ (applyRow_good st r hg).1

theorem foldl_applyRow_good_sids : ∀ (rows : List BuiltRow) (st : UpsertState),
    GoodState st →
    (∀ r ∈ rows, (List.lookup r.segment_id st.dict).isSome) →
    (rows.foldl applyRow st).samples.map (fun s => s.segment_id) =
      st.samples.map (fun s => s.segment_id) := by
  intro rows
  induction rows with
  | nil => intro st _ _; rfl
  | cons r rows ih =>
    intro st hg hall
    have hr := hall r (List.mem_cons_self r rows)
    obtain ⟨idx, hidx⟩ := Option.isSome_iff_exists.mp hr
    have hstep : applyRow st r =
        { st with samples := st.samples.set idx (rowToSample r),
                  updated := st.updated + 1 } := by
      unfold applyRow
      rw [hidx]
    have hdict : (applyRow st r).dict = st.dict := by rw [hstep]
    have hmap : (applyRow st r).samples.map (fun s => s.segment_id) =
        st.samples.map (fun s => s.segment_id) := by
      rcases (applyRow_good st r hg).2 with h | h
      · exact h
      · exfalso
        rw [hstep] at h
        have hlen := congrArg List.length h
        simp only [List.length_map, List.length_set, List.length_append,
          List.length_cons, List.length_nil] at hlen
        omega
    have hall2 : ∀ s ∈ rows, (List.lookup s.segment_id (applyRow st r).dict).isSome := by
      intro s hs
      rw [hdict]
      exact hall s (List.mem_cons_of_mem r hs)
    rw [List.foldl_cons, ih (applyRow st r) (applyRow_good st r hg).1 hall2, hmap]

theorem good_init (store : List SampleRow) (c u : ℕ)
    (hnn : ∀ r ∈ store, r.segment_id ≠ none)
    (hnd : (store.map (fun r => r.segment_id)).Nodup) :
    GoodState ⟨store, buildIdx (store.map (fun r => r.segment_id)), c, u⟩ := by
  have hfl : ∀ i, ((store.map (fun r => r.segment_id)).filterMap id).get? i =
      ((store.map (fun r => r.segment_id)).get? i).bind id := by
    intro i
    apply get?_filterMap_all_some
    intro x hx
    obtain ⟨r, hr, rfl⟩ := List.mem_map.mp hx
    exact hnn r hr
  refine ⟨hnn, hnd, ⟨?_, ?_⟩, ?_, ?_⟩
  · intro k p h
    have h1 := lookup_buildIdx_get h
    rw [hfl] at h1
    have h2 : (store.map (fun r => r.segment_id)).get? p = some (some k) := by
      cases ho : (store.map (fun r => r.segment_id)).get? p with
      | none => rw [ho] at h1; simp at h1
      | some o =>
        rw [ho] at h1
        cases o with
        | none => simp at h1
        | some a =>
          simp only [Option.bind_some, id] at h1
          rw [Option.some.inj h1]
    have := (List.get?_eq_some.mp h2).1
    simpa using this
  · intro k1 k2 p h1 h2
    exact lookup_buildIdx_inj h1 h2
  · intro k p h
    have h1 := lookup_buildIdx_get h
    rw [hfl] at h1
    cases ho : (store.map (fun r => r.segment_id)).get? p with
    | none => rw [ho] at h1; simp at h1
    | some o =>
      rw [ho] at h1
      cases o with
      | none => simp at h1
      | some a =>
        simp only [Option.bind_some, id] at h1
        obtain rfl := Option.some.inj h1
        rw [List.get?_map] at ho
        cases hrow : store.get? p with
        | none => rw [hrow] at ho; simp at ho
        | some row =>
          rw [hrow] at ho
          simp only [Option.map_some'] at ho
          exact ⟨row, rfl, Option.some.inj ho⟩
  · intro k h
    exact lookup_buildIdx_none h

theorem mkRow_ok_fields (seg : SegLayer) (segIdx : List (Int × ℕ)) (now : String)
    (f : FeatureInput) (r : BuiltRow)
    (h : mkRow seg segIdx now f = Except.ok r) :
    f.segment_id = some r.segment_id
    ∧ ∀ now2, ∃ r2, mkRow seg segIdx now2 f = Except.ok r2 ∧
        r2.segment_id = r.segment_id := by
  unfold mkRow at h
  cases hs : f.segment_id with
  | none =>
    simp only [hs] at h
    exact Except.noConfusion h
  | some sid =>
    cases hc : f.classe with
    | none =>
      simp only [hs, hc] at h
      exact Except.noConfusion h
    | some cls =>
      simp only [hs, hc] at h
      cases hg : f.geometry with
      | some geom =>
        simp only [hg] at h
        obtain rfl := Except.ok.inj h
        refine ⟨rfl, fun now2 => ⟨⟨sid, stripLower cls, usuarioOf f, tsOf f now2, geom⟩, ?_, rfl⟩⟩
        unfold mkRow
        simp only [hs, hc, hg]
      | none =>
        simp only [hg] at h
        cases hlk : List.lookup sid segIdx with
        | none =>
          simp only [hlk] at h
          exact Except.noConfusion h
        | some pos =>
          simp only [hlk] at h
          cases hget : seg.get? pos with
          | none =>
            simp only [hget] at h
            exact Except.noConfusion h
          | some rr =>
            simp only [hget] at h
            obtain rfl := Except.ok.inj h
            refine ⟨rfl, fun now2 =>
              ⟨⟨sid, stripLower cls, usuarioOf f, tsOf f now2, rr.2⟩, ?_, rfl⟩⟩
            unfold mkRow
            simp only [hs, hc, hg, hlk, hget]

theorem mapExcept_mkRow_exchange (seg : SegLayer) (segIdx : List (Int × ℕ))
    (now now2 : String) :
    ∀ (feats : List FeatureInput) (rows : List BuiltRow),
      mapExcept (mkRow seg segIdx now) feats = Except.ok rows →
      feats.map (fun f => f.segment_id) = rows.map (fun r => some r.segment_id)
      ∧ ∃ rows2, mapExcept (mkRow seg segIdx now2) feats = Except.ok rows2 ∧
          rows2.map (fun r => r.segment_id) = rows.map (fun r => r.segment_id) := by
  intro feats
  induction feats with
  | nil =>
    intro rows h
    simp only [mapExcept] at h
    obtain rfl := Except.ok.inj h
    exact ⟨rfl, [], rfl, rfl⟩
  | cons f fs ih =>
    intro rows h
    simp only [mapExcept] at h
    cases hss : mkRow seg segIdx now f with
    | error e =>
      simp only [hss] at h
      exact Except.noConfusion h
    | ok y =>
      simp only [hss] at h
      cases hrest : mapExcept (mkRow seg segIdx now) fs with
      | error e =>
        simp only [hrest] at h
        exact Except.noConfusion h
      | ok ys =>
        simp only [hrest] at h
        obtain rfl := Except.ok.inj h
        obtain ⟨hmap, hex⟩ := ih ys hrest
        obtain ⟨hsid, hnow2⟩ := mkRow_ok_fields seg segIdx now f y hss
        obtain ⟨y2, hy2, hy2sid⟩ := hnow2 now2
        obtain ⟨ys2, hys2, hys2map⟩ := hex
        refine ⟨?_, y2 :: ys2, ?_, ?_⟩
        · simp only [List.map_cons, hsid, hmap]
        · simp only [mapExcept, hy2, hys2]
        · simp only [List.map_cons, hy2sid, hys2map]

theorem dictOk_init (store : List SampleRow) (c u : ℕ) :
    DictOk ⟨store, buildIdx (store.map (fun r => r.segment_id)), c, u⟩ := by
  constructor
  · intro k p h
    have ha := lookup_buildIdx_lt h
    have hb := List.length_filterMap_le id (store.map (fun r => r.segment_id))
    simp only [List.length_map] at hb
    exact lt_of_lt_of_le ha hb
  · intro k1 k2 p ha hb
    exact lookup_buildIdx_inj ha hb

/-- Behaviour of a repeated upsert: given the first call's validated rows and
the facts that every row id is present in the intermediate store (and that the
store can only be empty when the batch is), the second call updates every row
and creates none; under a clean intermediate store it does not change the id
column at all. -/
theorem upsert_second_call (seg : SegLayer) (store1 : List SampleRow)
    (feats : List FeatureInput) (now1 now2 : String) (rows1 : List BuiltRow)
    (hm1 : mapExcept (mkRow seg (buildIdx (seg.map Prod.fst)) now1) feats =
      Except.ok rows1)
    (hpres : ∀ r1 ∈ rows1, some r1.segment_id ∈
      store1.map (fun s => s.segment_id))
    (hlen0 : store1.length = 0 → feats = []) :
    ∃ store2, upsert_samples_from_features seg store1 feats now2 =
        Except.ok (store2, 0, feats.length)
      ∧ ((∀ s ∈ store1, s.segment_id ≠ none) →
          (store1.map (fun s => s.segment_id)).Nodup →
          store2.map (fun s => s.segment_id) =
            store1.map (fun s => s.segment_id)) := by
  obtain ⟨hsid_eq, rows2, hm2, hmap2⟩ :=
    mapExcept_mkRow_exchange seg (buildIdx (seg.map Prod.fst)) now1 now2 feats rows1 hm1
  have hlen12 : rows2.length = rows1.length := by
    have := congrArg List.length hmap2
    simpa using this
  have hlenf : feats.length = rows1.length := by
    have := congrArg List.length hsid_eq
    simpa using this
  unfold upsert_samples_from_features
  simp only [hm2]
  by_cases hL : store1.length = 0
  · have hfe : feats = [] := hlen0 hL
    subst hfe
    have hr1 : rows1 = [] := by
      have : rows1.length = 0 := by simpa using hlenf.symm
      exact List.length_eq_zero.mp this
    subst hr1
    have hr2 : rows2 = [] := List.length_eq_zero.mp (by simpa using hlen12)
    subst hr2
    rw [if_pos hL]
    refine ⟨[], by simp, ?_⟩
    intro _ _
    have hst : store1 = [] := List.length_eq_zero.mp hL
    rw [hst]
  · rw [if_neg hL]
    have hall2 : ∀ r ∈ rows2,
        (List.lookup r.segment_id
          (⟨store1, buildIdx (store1.map (fun s => s.segment_id)), 0, 0⟩ :
            UpsertState).dict).isSome := by
      intro r hr
      apply lookup_buildIdx_isSome
      have hmem : r.segment_id ∈ rows2.map (fun s => s.segment_id) :=
        List.mem_map.mpr ⟨r, hr, rfl⟩
      rw [hmap2] at hmem
      obtain ⟨r1, hr1, he⟩ := List.mem_map.mp hmem
      have := hpres r1 hr1
      rw [he] at this
      exact this
    obtain ⟨hc, hu, _⟩ := foldl_applyRow_counts rows2
      ⟨store1, buildIdx (store1.map (fun s => s.segment_id)), 0, 0⟩ hall2
    refine ⟨(rows2.foldl applyRow
      ⟨store1, buildIdx (store1.map (fun s => s.segment_id)), 0, 0⟩).samples, ?_, ?_⟩
    · rw [hc, hu]
      have h3 : rows2.length = feats.length := by omega
      rw [h3]
      norm_num
    · intro hnn hnd
      exact foldl_applyRow_good_sids rows2 _ (good_init store1 0 0 hnn hnd) hall2


theorem count_one_of_nodup_mem (a : Option Int) (l : List (Option Int))
    (hnd : l.Nodup) (hmem : a ∈ l) :
    (l.filter (fun x => decide (x = a))).length = 1 := by
  have h := List.count_eq_one_of_mem hnd hmem
  have h2 : @List.count _ instBEqOfDecidableEq a l =
      List.countP (fun x => decide (x = a)) l := rfl
  rw [h2, List.countP_eq_length_filter] at h
  exact h

/-- C6 amended: for every batch, if the first upsert succeeds then applying
the identical upsert again succeeds and reports created = 0 and
updated = N (N the number of inputs, duplicates counted); and whenever the
batch's segment_ids are pairwise distinct and the prior store's records have
pairwise distinct non-null segment_ids, the resulting store holds exactly
one record per distinct segment_id of the batch.  (The distinctness
hypotheses are forced: the empty-store fast path appends duplicate batch
rows wholesale, and the NA-dropping dictionary construction misaligns
positions on stores with null ids.) -/
theorem claim_C6_upsert_idempotent (seg : SegLayer) (store0 : List SampleRow)
    (feats : List FeatureInput) (now1 now2 : String)
    (store1 : List SampleRow) (c1 u1 : ℕ)
    (h1 : upsert_samples_from_features seg store0 feats now1 =
      Except.ok (store1, c1, u1)) :
    ∃ store2, upsert_samples_from_features seg store1 feats now2 =
        Except.ok (store2, 0, feats.length)
      ∧ (((feats.map (fun f => f.segment_id)).Nodup
          ∧ (∀ r ∈ store0, r.segment_id ≠ none)
          ∧ (store0.map (fun r => r.segment_id)).Nodup) →
         ∀ f ∈ feats, ∀ sid, f.segment_id = some sid →
           ((store2.map (fun r => r.segment_id)).filter
             (fun x => decide (x = some sid))).length = 1) := by
  simp only [upsert_samples_from_features] at h1
  cases hm1 : mapExcept (mkRow seg (buildIdx (seg.map Prod.fst)) now1) feats with
  | error e =>
    simp only [hm1] at h1
    exact Except.noConfusion h1
  | ok rows1 =>
    simp only [hm1] at h1
    obtain ⟨hsid_eq, _⟩ := mapExcept_mkRow_exchange seg
      (buildIdx (seg.map Prod.fst)) now1 now1 feats rows1 hm1
    by_cases h0 : store0.length = 0
    · rw [if_pos h0] at h1
      have hinj := Except.ok.inj h1
      injection hinj with hst hrest
      injection hrest with hc1 hu1
      subst hst
      have hsids1 : (rows1.map rowToSample).map (fun s => s.segment_id) =
          rows1.map (fun r => some r.segment_id) := by
        rw [List.map_map]
        rfl
      have hpres : ∀ r1 ∈ rows1, some r1.segment_id ∈
          (rows1.map rowToSample).map (fun s => s.segment_id) := by
        intro r1 hr1
        rw [hsids1]
        exact List.mem_map.mpr ⟨r1, hr1, rfl⟩
      have hlen0 : (rows1.map rowToSample).length = 0 → feats = [] := by
        intro hl
        have hr1 : rows1 = [] := by
          simpa using List.length_eq_zero.mp (by simpa using hl)
        subst hr1
        have := congrArg List.length hsid_eq
        simpa using List.length_eq_zero.mp (by simpa using this)
      obtain ⟨store2, hcall2, hclean2⟩ :=
        upsert_second_call seg (rows1.map rowToSample) feats now1 now2 rows1
          hm1 hpres hlen0
      refine ⟨store2, hcall2, ?_⟩
      rintro ⟨hfnd, _, _⟩ f hf sid hfsid
      have hnn1 : ∀ s ∈ rows1.map rowToSample, s.segment_id ≠ none := by
        intro s hs
        obtain ⟨r1, _, rfl⟩ := List.mem_map.mp hs
        simp [rowToSample]
      have hnd1 : ((rows1.map rowToSample).map (fun s => s.segment_id)).Nodup := by
        rw [hsids1, ← hsid_eq]
        exact hfnd
      have heq2 := hclean2 hnn1 hnd1
      rw [heq2, hsids1, ← hsid_eq]
      have hmem : some sid ∈ feats.map (fun f => f.segment_id) := by
        rw [← hfsid]
        exact List.mem_map.mpr ⟨f, hf, rfl⟩
      exact count_one_of_nodup_mem _ _ hfnd hmem
    · rw [if_neg h0] at h1
      have hinj := Except.ok.inj h1
      injection hinj with hst hrest
      injection hrest with hc1 hu1
      have hdo := dictOk_init store0 0 0
      obtain ⟨_, _, howns⟩ := foldl_applyRow_owns rows1
        ⟨store0, buildIdx (store0.map (fun r => r.segment_id)), 0, 0⟩ hdo
      have hpres : ∀ r1 ∈ rows1, some r1.segment_id ∈
          store1.map (fun s => s.segment_id) := by
        intro r1 hr1
        obtain ⟨p, _, row, hrow, hrsid⟩ := howns r1 hr1
        rw [← hst]
        have hrowmem : row ∈ (rows1.foldl applyRow
            ⟨store0, buildIdx (store0.map (fun r => r.segment_id)), 0, 0⟩).samples :=
          List.get?_mem hrow
        exact List.mem_map.mpr ⟨row, hrowmem, hrsid⟩
      have hlen0 : store1.length = 0 → feats = [] := by
        intro hl
        exfalso
        have hle := length_le_foldl_applyRow rows1
          ⟨store0, buildIdx (store0.map (fun r => r.segment_id)), 0, 0⟩
        rw [hst] at hle
        simp only [hl] at hle
        omega
      obtain ⟨store2, hcall2, hclean2⟩ :=
        upsert_second_call seg store1 feats now1 now2 rows1 hm1 hpres hlen0
      refine ⟨store2, hcall2, ?_⟩
      rintro ⟨hfnd, hsnn, hsnd⟩ f hf sid hfsid
      have hgood : GoodState (rows1.foldl applyRow
          ⟨store0, buildIdx (store0.map (fun r => r.segment_id)), 0, 0⟩) :=
        foldl_applyRow_good rows1 _ (good_init store0 0 0 hsnn hsnd)
      have hnn1 : ∀ s ∈ store1, s.segment_id ≠ none := by
        rw [← hst]
        exact hgood.1
      have hnd1 : (store1.map (fun s => s.segment_id)).Nodup := by
        rw [← hst]
        exact hgood.2.1
      have heq2 := hclean2 hnn1 hnd1
      rw [heq2]
      have hmem : some sid ∈ store1.map (fun s => s.segment_id) := by
        have hmemf : some sid ∈ feats.map (fun f => f.segment_id) := by
          rw [← hfsid]
          exact List.mem_map.mpr ⟨f, hf, rfl⟩
        rw [hsid_eq] at hmemf
        obtain ⟨r1, hr1, he⟩ := List.mem_map.mp hmemf
        have := hpres r1 hr1
        rw [he] at this
        exact this
      exact count_one_of_nodup_mem _ _ hnd1 hmem

/-- C6 counterexample: a batch holding the same segment_id twice, upserted
into an empty store.  The second identical upsert does report created = 0,
updated = N (= 2), but the store then holds two records for segment_id 1,
not exactly one per distinct id of the batch: the empty-store fast path
appended both duplicate rows. -/
theorem claim_C6_counterexample :
    upsert_samples_from_features [(some 1, 0)] []
        [⟨some 1, some "agua", none, some "t0", some 7⟩,
         ⟨some 1, some "agua", none, some "t0", some 7⟩] "t1" =
      Except.ok ([⟨some 1, "agua", none, "t0", 7⟩,
                  ⟨some 1, "agua", none, "t0", 7⟩], 2, 0)
    ∧ upsert_samples_from_features [(some 1, 0)]
        [⟨some 1, "agua", none, "t0", 7⟩, ⟨some 1, "agua", none, "t0", 7⟩]
        [⟨some 1, some "agua", none, some "t0", some 7⟩,
         ⟨some 1, some "agua", none, some "t0", some 7⟩] "t2" =
      Except.ok ([⟨some 1, "agua", none, "t0", 7⟩,
                  ⟨some 1, "agua", none, "t0", 7⟩], 0, 2)
    ∧ ((([⟨some 1, "agua", none, "t0", 7⟩,
          ⟨some 1, "agua", none, "t0", 7⟩] : List SampleRow).map
            (fun r => r.segment_id)).filter
          (fun x => decide (x = some 1))).length = 2 := by
  refine ⟨?_, ?_, ?_⟩
  · rfl
  · rfl
  · rfl

/-- Witness for the amended C6: a clean single-element batch, upserted twice
from the empty store; the second call reports (0, 1) and the store holds
exactly one record for segment_id 1. -/
theorem claim_C6_upsert_idempotent_witness :
    ∃ store2, upsert_samples_from_features [(some 1, 0)]
          [⟨some 1, "agua", none, "t0", 7⟩]
          [⟨some 1, some "agua", none, some "t0", some 7⟩] "t2" =
        Except.ok (store2, 0, 1)
      ∧ ((store2.map (fun r => r.segment_id)).filter
          (fun x => decide (x = some 1))).length = 1 := by
  obtain ⟨store2, hok, hcl⟩ :=
    claim_C6_upsert_idempotent [(some 1, 0)] []
      [⟨some 1, some "agua", none, some "t0", some 7⟩] "t1" "t2"
      [⟨some 1, "agua", none, "t0", 7⟩] 1 0 (by rfl)
  refine ⟨store2, hok, ?_⟩
  exact hcl (by decide) ⟨some 1, some "agua", none, some "t0", some 7⟩
    (by decide) 1 (by decide)

/-! ## Semi-supervised propagation (services/propagation.py)

The feature table is a list of rows (segment_id, feature vector); a float
is `Option ℚ` as before.  The label layer holds (segment_id, classe).
`StandardScaler` and the sklearn model's `transduction_` are external:
they enter as function parameters whose only assumed contract is that they
return one row per input row.  The encoder / decoder pair embeds
`_encode_labels` / `_decode_labels` (lines 38-50). -/

/-- Embeds series.fillna("unlabeled").astype(str).str.strip().str.lower(). -/
def normClass (x : Option String) : String := stripLower (x.getD "unlabeled")

/-- Embeds sorted([c for c in classes.unique() if c != "unlabeled"]) — the
key list of the {classe: id} mapping. -/
def uniqClasses (series : List (Option String)) : List String :=
  (((series.map normClass).dedup).filter
    (fun c => !(c == "unlabeled"))).insertionSort (· ≤ ·)

/-- The position a class gets in the mapping {c: i for i, c in enumerate(uniq)}. -/
def idxOfStr (c : String) : List String → ℕ
  | [] => 0
  | s :: rest => if s = c then 0 else idxOfStr c rest + 1

/-- Embeds `_encode_labels`: -1 for unlabeled rows, the mapping id
otherwise. -/
def encodeLabels (series : List (Option String)) : List Int :=
  (series.map normClass).map (fun c =>
    if c = "unlabeled" then (-1 : Int) else (idxOfStr c (uniqClasses series) : Int))

/-- Embeds `_decode_labels`: inv = {v: k}; inv.get(int(i), "unlabeled"). -/
def decodeLabels (ids : List Int) (uniq : List String) : List String :=
  ids.map (fun i =>
    if h : 0 ≤ i ∧ i.toNat < uniq.length then uniq.get ⟨i.toNat, h.2⟩
    else "unlabeled")

theorem idxOfStr_lt_length {c : String} : ∀ {l : List String}, c ∈ l →
    idxOfStr c l < l.length := by
  intro l
  induction l with
  | nil => intro h; simp at h
  | cons s rest ih =>
    intro h
    unfold idxOfStr
    split
    · simp
    · rename_i hne
      have hm : c ∈ rest := by
        rcases List.mem_cons.mp h with rfl | hm
        · exact absurd rfl hne
        · exact hm
      simpa using Nat.succ_lt_succ (ih hm)

theorem get_idxOfStr {c : String} : ∀ {l : List String} (h : c ∈ l),
    l.get ⟨idxOfStr c l, idxOfStr_lt_length h⟩ = c := by
  intro l
  induction l with
  | nil => intro h; simp at h
  | cons s rest ih =>
    intro h
    by_cases he : s = c
    · simp [idxOfStr, he]
    · have hm : c ∈ rest := by
        rcases List.mem_cons.mp h with rfl | hm
        · exact absurd rfl he
        · exact hm
      have := ih hm
      simp only [idxOfStr, if_neg he]
      simpa using this

/-- C7 counterexample: the label "Water" is present in the joined samples
(the labels layer is written verbatim from the request payload, without
normalization), yet decoding its encoded id yields "water", not "Water":
the encoder normalizes before building the mapping. -/
theorem claim_C7_counterexample :
    decodeLabels (encodeLabels [some "Water"]) (uniqClasses [some "Water"]) =
      ["water"]
    ∧ ("water" : String) ≠ "Water" := by
  constructor
  · rfl
  · decide

/-- C7 amended: decoding the integer codes produced by the label encoder
yields, for every entry of the joined class series, the case/whitespace
normalized form of that label (hence the label itself exactly when it is
already normalized; unlabeled/missing entries round-trip to
"unlabeled"). -/
theorem claim_C7_encode_decode_roundtrip (series : List (Option String)) :
    decodeLabels (encodeLabels series) (uniqClasses series) =
      series.map normClass := by
  unfold decodeLabels encodeLabels
  rw [List.map_map]
  conv_rhs => rw [← List.map_id (series.map normClass)]
  apply List.map_congr_left
  intro c hc
  simp only [Function.comp, id]
  by_cases hu : c = "unlabeled"
  · subst hu
    norm_num
  · simp only [if_neg hu]
    have hmem : c ∈ uniqClasses series := by
      unfold uniqClasses
      rw [(List.perm_insertionSort _ _).mem_iff, List.mem_filter]
      constructor
      · rw [List.mem_dedup]
        exact hc
      · simpa using hu
    have hlt := idxOfStr_lt_length hmem
    have hcond : (0 ≤ (idxOfStr c (uniqClasses series) : Int)) ∧
        ((idxOfStr c (uniqClasses series) : Int)).toNat <
          (uniqClasses series).length :=
      ⟨Int.natCast_nonneg _, by simpa using hlt⟩
    rw [dif_pos hcond]
    have hget := get_idxOfStr hmem
    have hidx : (⟨((idxOfStr c (uniqClasses series) : Int)).toNat, hcond.2⟩ :
        Fin (uniqClasses series).length) = ⟨idxOfStr c (uniqClasses series), hlt⟩ := by
      apply Fin.ext
      simp
    rw [hidx]
    exact hget

structure FeatRow where
  segment_id : Option Int
  x : List FVal
deriving DecidableEq

structure LabRow where
  segment_id : Option Int
  classe : Option String
deriving DecidableEq

/-- Embeds feats.merge(labs[["segment_id", "classe"]], on="segment_id",
how="left"): every feature row survives, duplicated once per matching label
row, with a missing class when no label matches. -/
def leftMerge (feats : List FeatRow) (labs : List LabRow) :
    List (FeatRow × Option String) :=
  feats.flatMap (fun f =>
    match labs.filter (fun l => l.segment_id == f.segment_id) with
    | [] => [(f, none)]
    | ms => ms.map (fun l => (f, l.classe)))

/-- A row is kept for model fitting iff its feature vector is all-finite
(np.isfinite(X).all(axis=1)). -/
def rowFinite (p : FeatRow × Option String) : Bool :=
  p.1.x.all (fun v => v.isSome)

/-- Embeds the data flow of `propagate_labels` (propagation.py, lines
59-148), file handling aside: left-join features with labels, encode the
class column of the full frame, drop rows with a non-finite feature vector,
standardize (external scaler), fit/transduce (external model), decode, and
return the per-segment result table together with n_total, n_labeled and
the labeled-rows self-consistency accuracy (None unless at least two labeled
rows spanning at least two classes survive). -/
def propagate_labels (scale : List (List ℚ) → List (List ℚ))
    (transduce : List (List ℚ) → List Int → List Int)
    (feats : List FeatRow) (labs : List LabRow) :
    List (Option Int × String) × ℕ × ℕ × Option ℚ :=
  let df := leftMerge feats labs
  let y := encodeLabels (df.map (fun p => p.2))
  let uniq := uniqClasses (df.map (fun p => p.2))
  let dfy := df.zip y
  let valid := dfy.filter (fun p => rowFinite p.1)
  let X := valid.map (fun p => p.1.1.x.map (fun v => v.getD 0))
  let yv := valid.map (fun p => p.2)
  let segids := valid.map (fun p => p.1.1.segment_id)
  let ypred := transduce (scale X) yv
  let rot := decodeLabels ypred uniq
  let out := segids.zip rot
  let nLabeled := (yv.filter (fun i => decide (0 ≤ i))).length
  let lp := (ypred.zip yv).filter (fun p => decide (0 ≤ p.2))
  let acc : Option ℚ :=
    if 2 ≤ lp.length ∧ 2 ≤ ((lp.map Prod.snd).dedup).length then
      some (((lp.filter (fun p => p.1 == p.2)).length : ℚ) / (lp.length : ℚ))
    else none
  (out, segids.length, nLabeled, acc)

theorem zip_filter_fst {α β γ : Type} (f : α → Bool) (g : α → γ) :
    ∀ (l : List α) (ys : List β), ys.length = l.length →
      ((l.zip ys).filter (fun p => f p.1)).map (fun p => g p.1) =
        (l.filter f).map g := by
  intro l
  induction l with
  | nil => intro ys _; simp
  | cons a l ih =>
    intro ys h
    cases ys with
    | nil => simp at h
    | cons y ys =>
      simp only [List.zip_cons_cons, List.filter_cons]
      by_cases hf : f a
      · simp [hf, ih ys (by simpa using h)]
      · simp [hf, ih ys (by simpa using h)]

set_option maxHeartbeats 2000000 in
/-- C3 counterexample: a feature table with finite rows for segments 1 and 3
and a non-finite row for segment 2, with one labeled class ("agua" on
segment 1).  The emitted result table holds records for segments 1 and 3
only; segment 2 receives no Propagation Result at all — not an "unlabeled,
maximal-uncertainty" one as claimed (no uncertainty is computed anywhere in
the function). -/
theorem claim_C3_counterexample :
    (propagate_labels (fun X => X) (fun X _ => X.map (fun _ => (0 : Int)))
        [⟨some 1, [some 1]⟩, ⟨some 2, [none]⟩, ⟨some 3, [some 2]⟩]
        [⟨some 1, some "agua"⟩]).1 =
      [(some 1, "agua"), (some 3, "agua")]
    ∧ ¬ (some 2 ∈ ((propagate_labels (fun X => X)
        (fun X _ => X.map (fun _ => (0 : Int)))
        [⟨some 1, [some 1]⟩, ⟨some 2, [none]⟩, ⟨some 3, [some 2]⟩]
        [⟨some 1, some "agua"⟩]).1.map Prod.fst)) := by
  constructor
  · decide
  · decide

set_option maxHeartbeats 2000000 in
/-- C3 amended: rows whose feature vector contains a non-finite value are
excluded both from model fitting and from the emitted result table: for any
scaler and any row-count-preserving model, the result table's segment_id
column equals exactly the id column of the finite-featured joined rows. -/
theorem claim_C3_nonfinite_excluded (scale : List (List ℚ) → List (List ℚ))
    (transduce : List (List ℚ) → List Int → List Int)
    (feats : List FeatRow) (labs : List LabRow)
    (hscale : ∀ X, (scale X).length = X.length)
    (htrans : ∀ X y, (transduce X y).length = X.length) :
    (propagate_labels scale transduce feats labs).1.map Prod.fst =
      ((leftMerge feats labs).filter rowFinite).map
        (fun p => p.1.segment_id) := by
  simp only [propagate_labels]
  rw [List.map_fst_zip]
  · exact zip_filter_fst rowFinite (fun r => r.1.segment_id) (leftMerge feats labs)
      (encodeLabels ((leftMerge feats labs).map (fun p => p.2)))
      (by simp [encodeLabels])
  · simp [decodeLabels, htrans, hscale]

set_option maxHeartbeats 2000000 in
/-- Witness for the amended C3 at a concrete table with one labeled class:
the finite rows keep their records, the non-finite row is dropped. -/
theorem claim_C3_nonfinite_excluded_witness :
    (propagate_labels (fun X => X) (fun X _ => X.map (fun _ => (0 : Int)))
        [⟨some 1, [some 1]⟩, ⟨some 2, [none]⟩, ⟨some 3, [some 2]⟩]
        [⟨some 1, some "agua"⟩]).1.map Prod.fst = [some 1, some 3] := by
  have h := claim_C3_nonfinite_excluded (fun X => X)
    (fun X _ => X.map (fun _ => (0 : Int)))
    [⟨some 1, [some 1]⟩, ⟨some 2, [none]⟩, ⟨some 3, [some 2]⟩]
    [⟨some 1, some "agua"⟩]
    (fun X => rfl) (fun X y => by simp)
  rw [h]
  decide

/-! ## Uncertainty scoring of Propagation Results

src/services/propagation.py computes no entropy, margin or normalized
uncertainty (its output carries only the hard class per segment); the spec
describes this scoring step (§4.7 step 4) as part of the repository's
reference implementation, so it is modelled here from the spec's words. -/

/-- Modelled from the spec: the Shannon entropy of a per-segment
class-probability distribution — "0 when the distribution is one-hot,
maximal when uniform across classes".  This scoring code is absent from
src/services/propagation.py. -/
noncomputable def shannonEntropy (p : List ℝ) : ℝ :=
  (p.map Real.negMulLog).sum

/-- Modelled from the spec: the margin — "difference between the top two
class probabilities". -/
noncomputable def marginScore (p : List ℝ) : ℝ :=
  (p.insertionSort (· ≥ ·)).headD 0 - ((p.insertionSort (· ≥ ·)).drop 1).headD 0

/-- Modelled from the spec: "the maximum entropy observed across all
segments in this run". -/
noncomputable def maxEntropy (ps : List (List ℝ)) : ℝ :=
  (ps.map shannonEntropy).foldr max 0

/-- Modelled from the spec: "a normalized uncertainty in [0,1] obtained by
dividing entropy by the maximum entropy observed across all segments in
this run (defined as 0 if that maximum is 0)". -/
noncomputable def normalizedUncertainty (ps : List (List ℝ)) (p : List ℝ) : ℝ :=
  if maxEntropy ps = 0 then 0 else shannonEntropy p / maxEntropy ps

/-- Modelled from the spec: a Propagation Result record — predicted class
plus entropy, margin and normalized uncertainty. -/
structure PropagationResult where
  classe : String
  entropy : ℝ
  margin : ℝ
  normU : ℝ

/-- Modelled from the spec: one Propagation Result per segment of the run,
carrying the hard class and the three uncertainty scores. -/
noncomputable def propagationResults (classes : List String)
    (ps : List (List ℝ)) : List PropagationResult :=
  List.zipWith (fun c p =>
    ⟨c, shannonEntropy p, marginScore p, normalizedUncertainty ps p⟩) classes ps

/-- A valid class-probability distribution. -/
def IsDistribution (p : List ℝ) : Prop := (∀ x ∈ p, 0 ≤ x) ∧ p.sum = 1

/-- One-hot: some entry is 1 and every other entry is 0. -/
def IsOneHot (p : List ℝ) : Prop :=
  ∃ i, ∃ h : i < p.length, p.get ⟨i, h⟩ = 1 ∧
    ∀ j, (hj : j < p.length) → j ≠ i → p.get ⟨j, hj⟩ = 0

theorem mem_zipWith_exists {α β γ : Type} {f : α → β → γ} :
    ∀ {l1 : List α} {l2 : List β} {x : γ}, x ∈ List.zipWith f l1 l2 →
      ∃ a ∈ l1, ∃ b ∈ l2, x = f a b := by
  intro l1
  induction l1 with
  | nil => intro l2 x h; simp at h
  | cons a l1 ih =>
    intro l2 x h
    cases l2 with
    | nil => simp at h
    | cons b l2 =>
      rw [List.zipWith_cons_cons] at h
      rcases List.mem_cons.mp h with rfl | hm
      · exact ⟨a, List.mem_cons_self a l1, b, List.mem_cons_self b l2, rfl⟩
      · obtain ⟨a2, ha2, b2, hb2, rfl⟩ := ih hm
        exact ⟨a2, List.mem_cons_of_mem _ ha2, b2, List.mem_cons_of_mem _ hb2, rfl⟩

theorem list_sum_eq_zero_iff {l : List ℝ} (h : ∀ x ∈ l, 0 ≤ x) :
    l.sum = 0 ↔ ∀ x ∈ l, x = 0 := by
  induction l with
  | nil => simp
  | cons x rest ih =>
    have hx : 0 ≤ x := h x (List.mem_cons_self x rest)
    have hrest : ∀ y ∈ rest, 0 ≤ y := fun y hy => h y (List.mem_cons_of_mem x hy)
    have hsum : 0 ≤ rest.sum := List.sum_nonneg hrest
    simp only [List.sum_cons]
    rw [add_eq_zero_iff_of_nonneg hx hsum, ih hrest]
    constructor
    · rintro ⟨h1, h2⟩ y hy
      rcases List.mem_cons.mp hy with rfl | hm
      · exact h1
      · exact h2 y hm
    · intro hall
      exact ⟨hall x (List.mem_cons_self x rest),
        fun y hy => hall y (List.mem_cons_of_mem x hy)⟩

theorem negMulLog_eq_zero_iff_of_nonneg {x : ℝ} (hx : 0 ≤ x) :
    Real.negMulLog x = 0 ↔ x = 0 ∨ x = 1 := by
  unfold Real.negMulLog
  constructor
  · intro h
    have h2 : x * Real.log x = 0 := by
      have : -(x * Real.log x) = 0 := by linarith [h, neg_mul x (Real.log x)]
      linarith [this]
    rcases mul_eq_zero.mp h2 with h3 | h3
    · exact Or.inl h3
    · rcases Real.log_eq_zero.mp h3 with h4 | h4 | h4
      · exact Or.inl h4
      · exact Or.inr h4
      · exfalso
        rw [h4] at hx
        norm_num at hx
  · rintro (rfl | rfl) <;> simp

theorem onehot_of_binary_sum_one : ∀ (p : List ℝ),
    (∀ x ∈ p, x = 0 ∨ x = 1) → p.sum = 1 → IsOneHot p := by
  intro p
  induction p with
  | nil =>
    intro _ hsum
    norm_num at hsum
  | cons x rest ih =>
    intro hbin hsum
    have hrestbin : ∀ y ∈ rest, y = 0 ∨ y = 1 :=
      fun y hy => hbin y (List.mem_cons_of_mem x hy)
    have hrestnn : ∀ y ∈ rest, 0 ≤ y := by
      intro y hy
      rcases hrestbin y hy with rfl | rfl <;> norm_num
    rcases hbin x (List.mem_cons_self x rest) with rfl | rfl
    · have hsum2 : rest.sum = 1 := by
        simpa using hsum
      obtain ⟨i, hi, h1, h0⟩ := ih hrestbin hsum2
      refine ⟨i + 1, by simpa using Nat.succ_lt_succ hi, by simpa using h1, ?_⟩
      intro j hj hne
      cases j with
      | zero => simp
      | succ k =>
        have hk : k < rest.length := by simpa using hj
        have hkne : k ≠ i := fun he => hne (by rw [he])
        simpa using h0 k hk hkne
    · have hsum2 : rest.sum = 0 := by
        simpa using hsum
      have hall : ∀ y ∈ rest, y = 0 := (list_sum_eq_zero_iff hrestnn).mp hsum2
      refine ⟨0, by simp, by simp, ?_⟩
      intro j hj hne
      cases j with
      | zero => exact absurd rfl hne
      | succ k =>
        have hk : k < rest.length := by simpa using hj
        have : rest.get ⟨k, hk⟩ ∈ rest := List.get_mem rest k hk
        simpa using hall _ this

theorem binary_of_onehot {p : List ℝ} (h : IsOneHot p) :
    ∀ x ∈ p, x = 0 ∨ x = 1 := by
  obtain ⟨i, hi, h1, h0⟩ := h
  intro x hx
  obtain ⟨⟨j, hj⟩, hget⟩ := List.mem_iff_get.mp hx
  by_cases hji : j = i
  · subst hji
    right
    rw [← hget]
    exact h1
  · left
    rw [← hget]
    exact h0 j hj hji

theorem shannonEntropy_eq_zero_iff (p : List ℝ) (hd : IsDistribution p) :
    shannonEntropy p = 0 ↔ IsOneHot p := by
  have hle1 : ∀ x ∈ p, x ≤ 1 := by
    intro x hx
    have := List.single_le_sum hd.1 x hx
    rw [hd.2] at this
    exact this
  have hterms : ∀ t ∈ p.map Real.negMulLog, 0 ≤ t := by
    intro t ht
    obtain ⟨x, hx, rfl⟩ := List.mem_map.mp ht
    exact Real.negMulLog_nonneg (hd.1 x hx) (hle1 x hx)
  constructor
  · intro h
    have hz := (list_sum_eq_zero_iff hterms).mp h
    have hbin : ∀ x ∈ p, x = 0 ∨ x = 1 := by
      intro x hx
      have := hz (Real.negMulLog x) (List.mem_map.mpr ⟨x, hx, rfl⟩)
      exact (negMulLog_eq_zero_iff_of_nonneg (hd.1 x hx)).mp this
    exact onehot_of_binary_sum_one p hbin hd.2
  · intro h
    apply (list_sum_eq_zero_iff hterms).mpr
    intro t ht
    obtain ⟨x, hx, rfl⟩ := List.mem_map.mp ht
    rcases binary_of_onehot h x hx with rfl | rfl <;> simp

theorem le_foldr_max (l : List ℝ) (b : ℝ) : ∀ a ∈ l, a ≤ l.foldr max b := by
  induction l with
  | nil => intro a ha; simp at ha
  | cons x rest ih =>
    intro a ha
    rcases List.mem_cons.mp ha with rfl | hm
    · exact le_max_left _ _
    · exact le_trans (ih a hm) (le_max_right _ _)

theorem base_le_foldr_max (l : List ℝ) (b : ℝ) : b ≤ l.foldr max b := by
  induction l with
  | nil => exact le_rfl
  | cons x rest ih => exact le_trans ih (le_max_right _ _)

theorem shannonEntropy_nonneg (p : List ℝ) (hd : IsDistribution p) :
    0 ≤ shannonEntropy p := by
  apply List.sum_nonneg
  intro t ht
  obtain ⟨x, hx, rfl⟩ := List.mem_map.mp ht
  have hle1 : x ≤ 1 := by
    have := List.single_le_sum hd.1 x hx
    rw [hd.2] at this
    exact this
  exact Real.negMulLog_nonneg (hd.1 x hx) hle1

/-- C1 (spec-modelled): every emitted Propagation Result carries, besides the
hard class, the Shannon entropy of its class-probability distribution — zero
exactly when that distribution is one-hot — the margin between the top two
class probabilities, and a normalized uncertainty in [0,1] equal to entropy
divided by the run's maximum entropy, and 0 for every segment when that
maximum is 0. -/
theorem claim_C1_uncertainty_scores (classes : List String) (ps : List (List ℝ))
    (hdist : ∀ p ∈ ps, IsDistribution p) (r : PropagationResult)
    (hr : r ∈ propagationResults classes ps) :
    ∃ p ∈ ps,
      r.entropy = shannonEntropy p
      ∧ r.margin = marginScore p
      ∧ r.normU = normalizedUncertainty ps p
      ∧ (r.entropy = 0 ↔ IsOneHot p)
      ∧ 0 ≤ r.normU ∧ r.normU ≤ 1
      ∧ (maxEntropy ps = 0 → r.normU = 0) := by
  obtain ⟨c, _hc, p, hp, rfl⟩ := mem_zipWith_exists hr
  refine ⟨p, hp, rfl, rfl, rfl, shannonEntropy_eq_zero_iff p (hdist p hp), ?_, ?_, ?_⟩
  · unfold normalizedUncertainty
    split
    · exact le_rfl
    · rename_i hne
      have hmax0 : 0 ≤ maxEntropy ps := base_le_foldr_max _ _
      exact div_nonneg (shannonEntropy_nonneg p (hdist p hp)) hmax0
  · unfold normalizedUncertainty
    split
    · norm_num
    · rename_i hne
      have hmax0 : 0 ≤ maxEntropy ps := base_le_foldr_max _ _
      have hmaxpos : 0 < maxEntropy ps := lt_of_le_of_ne hmax0 (Ne.symm hne)
      have hle : shannonEntropy p ≤ maxEntropy ps :=
        le_foldr_max _ _ _ (List.mem_map.mpr ⟨p, hp, rfl⟩)
      exact (div_le_one hmaxpos).mpr hle
  · intro h
    unfold normalizedUncertainty
    rw [if_pos h]

/-- Witness for C1 on the concrete one-hot run [[1,0],[0,1]]: the first
result's normalized uncertainty is within [0,1] and collapses to 0 whenever
the run's maximum entropy is 0. -/
theorem claim_C1_uncertainty_scores_witness :
    0 ≤ normalizedUncertainty [[(1 : ℝ), 0], [0, 1]] [1, 0]
    ∧ normalizedUncertainty [[(1 : ℝ), 0], [0, 1]] [1, 0] ≤ 1
    ∧ (maxEntropy [[(1 : ℝ), 0], [0, 1]] = 0 →
        normalizedUncertainty [[(1 : ℝ), 0], [0, 1]] [1, 0] = 0) := by
  have hdist : ∀ p ∈ [[(1 : ℝ), 0], [0, 1]], IsDistribution p := by
    intro p hp
    rcases List.mem_cons.mp hp with rfl | hp2
    · constructor
      · intro x hx
        rcases List.mem_cons.mp hx with rfl | hx2
        · norm_num
        · simp only [List.mem_singleton] at hx2
          rw [hx2]
      · simp
    · simp only [List.mem_singleton] at hp2
      subst hp2
      constructor
      · intro x hx
        rcases List.mem_cons.mp hx with rfl | hx2
        · norm_num
        · simp only [List.mem_singleton] at hx2
          rw [hx2]
          norm_num
      · simp
  obtain ⟨p, hp, he, hm, hn, hiff, h0, h1, hmax⟩ :=
    claim_C1_uncertainty_scores ["water", "urban"] [[(1 : ℝ), 0], [0, 1]] hdist
      ⟨"water", shannonEntropy [1, 0], marginScore [1, 0],
        normalizedUncertainty [[(1 : ℝ), 0], [0, 1]] [1, 0]⟩
      (by simp only [propagationResults, List.zipWith_cons_cons, List.zipWith_nil_right]
          exact List.mem_cons_self _ _)
  exact ⟨h0, h1, hmax⟩

end GeoApi
